import Mathlib

/-!
Verification development for the image-extension rewriting utility
(`scripts/update_images.py`).

The script compiles the pattern

  (<img\s+[^>]*src=["'])([^"']+\.)(jpg|png)(["'][^>]*>)

with IGNORECASE and applies `pattern.sub(replace_ext, content)` to every
`.html` file found by `os.walk`, skipping any directory whose path contains
the substring `node_modules`, and writes a file back (printing a notice)
only when the substitution changed its content.

The embedding below models the regular expression by a faithful
backtracking matcher on `List Char` (greedy quantifiers try the longest
split first, exactly as the Python engine does), the global substitution
`re.sub` by a left-to-right scan, and the directory walk by a fold over a
list of files.  Case folding and the whitespace class are modelled on the
ASCII range, which is the fragment exercised by every property below.
-/

namespace UpdateImages

/-! ### Definitions: the pattern matcher, the substitution, and the walk -/

/-- The character class `["']`. -/
def isQuoteC (c : Char) : Bool := c == '"' || c == '\''

/-- The character class `[^"']`. -/
def notQuoteC (c : Char) : Bool := !(isQuoteC c)

/-- The character class `[^>]`. -/
def notGtC (c : Char) : Bool := c != '>'

/-- The character class `\s`, restricted to the ASCII range: exactly the
ten ASCII characters Python's `\s` matches on `str` (tab, LF, VT, FF, CR,
FS, GS, RS, US, space), so that on ASCII input the model agrees with the
program character for character. -/
def isWsC (c : Char) : Bool :=
  c == ' ' || c == '\t' || c == '\n' || c == '\x0b' || c == '\x0c' || c == '\r' ||
  c == '\x1c' || c == '\x1d' || c == '\x1e' || c == '\x1f'

/-- Case-insensitive literal matching: consume `pat` (given in lowercase)
from the front of `s`, returning the remainder. -/
def stripCI : List Char → List Char → Option (List Char)
  | [], s => some s
  | _ :: _, [] => none
  | a :: pat, c :: s => if c.toLower = a.toLower then stripCI pat s else none

/-- First success of `k` over the elements of `l`, in order.  This is the
backtracking combinator: earlier elements are preferred. -/
def firstSome : List α → (α → Option β) → Option β
  | [], _ => none
  | a :: l, k =>
    match k a with
    | some b => some b
    | none => firstSome l k

/-- All ways a greedy `p*` can split `s` into a consumed part and a
remainder, longest consumed part first (the order a backtracking regex
engine explores). -/
def starSplits (p : Char → Bool) (s : List Char) : List (List Char × List Char) :=
  (List.range (s.takeWhile p).length.succ).reverse.map (fun i => (s.take i, s.drop i))

/-- Greedy `p*` followed by continuation `k` (backtracks through `k`). -/
def tryStar (p : Char → Bool) (s : List Char) (k : List Char → List Char → Option β) :
    Option β :=
  firstSome (starSplits p s) (fun cr => k cr.1 cr.2)

/-- Greedy `p+` followed by continuation `k` (backtracks through `k`). -/
def tryPlus (p : Char → Bool) (s : List Char) (k : List Char → List Char → Option β) :
    Option β :=
  firstSome ((starSplits p s).filter (fun cr => !cr.1.isEmpty)) (fun cr => k cr.1 cr.2)

/-- The alternation `(jpg|png)` (case-insensitive), returning the matched
text (original casing) and the remainder. -/
def matchExt (s : List Char) : Option (List Char × List Char) :=
  match stripCI ['j', 'p', 'g'] s with
  | some r => some (s.take 3, r)
  | none =>
    match stripCI ['p', 'n', 'g'] s with
    | some r => some (s.take 3, r)
    | none => none

/-- The tail `["'][^>]*>` of the pattern: group 4 and the remainder after
the whole match. -/
def matchTail4 : List Char → Option (List Char × List Char)
  | [] => none
  | q :: s1 =>
    if isQuoteC q then
      match s1.dropWhile notGtC with
      | c :: r2 => if c = '>' then some (q :: (s1.takeWhile notGtC ++ ['>']), r2) else none
      | [] => none
    else none

/-- The part `\.(jpg|png)["'][^>]*>` once the stem of the path value has
been chosen: groups 2, 3, 4 and the remainder. -/
def matchDotExt (stem s8 : List Char) :
    Option (List Char × List Char × List Char × List Char) :=
  match matchExt s8 with
  | some (ext, s9) =>
    match matchTail4 s9 with
    | some (g4, rest) => some (stem ++ ['.'], ext, g4, rest)
    | none => none
  | none => none

/-- The part `([^"']+\.)(jpg|png)(["'][^>]*>)` after the opening quote:
groups 2, 3, 4 and the remainder. -/
def matchVal (s : List Char) : Option (List Char × List Char × List Char × List Char) :=
  tryPlus notQuoteC s (fun stem s7 =>
    match s7 with
    | c :: s8 => if c = '.' then matchDotExt stem s8 else none
    | [] => none)

/-- The part `src=["']` followed by the value, given the consumed
whitespace and middle: the tail of group 1 and groups 2, 3, 4 with the
remainder. -/
def matchSrcEq (ws mid s4 : List Char) :
    Option (List Char × List Char × List Char × List Char × List Char) :=
  match stripCI ['s', 'r', 'c', '='] s4 with
  | some (q :: s6) =>
    if isQuoteC q then
      match matchVal s6 with
      | some (g2, g3, g4, rest) => some (ws ++ mid ++ s4.take 4 ++ [q], g2, g3, g4, rest)
      | none => none
    else none
  | some [] => none
  | none => none

/-- The part `\s+[^>]*src=["']...` after the literal `<img`: the tail of
group 1 (whitespace, middle, matched `src=` text, opening quote) and
groups 2, 3, 4 with the remainder. -/
def matchAfterImg (s2 : List Char) :
    Option (List Char × List Char × List Char × List Char × List Char) :=
  tryPlus isWsC s2 (fun ws s3 =>
    tryStar notGtC s3 (fun mid s4 => matchSrcEq ws mid s4))

/-- One match of `img_tag_pattern`, decomposed into the four capture
groups and the text following the match. -/
structure ImgMatch where
  g1 : List Char
  g2 : List Char
  g3 : List Char
  g4 : List Char
  rest : List Char
deriving DecidableEq, Repr

/-- The pattern after the leading `<`: the case-insensitive literal `img`
followed by the rest of the pattern. -/
def matchImgTag (s1 : List Char) : Option ImgMatch :=
  match stripCI ['i', 'm', 'g'] s1 with
  | some s2 =>
    match matchAfterImg s2 with
    | some (g1t, g2, g3, g4, rest) => some ⟨'<' :: (s1.take 3 ++ g1t), g2, g3, g4, rest⟩
    | none => none
  | none => none

/-- Attempt to match `img_tag_pattern` at the start of `s`. -/
def matchImgAt (s : List Char) : Option ImgMatch :=
  match s with
  | c :: s1 => if c = '<' then matchImgTag s1 else none
  | [] => none

/-- The literal replacement extension `webp`. -/
def webpL : List Char := ['w', 'e', 'b', 'p']

/-- The callback `replace_ext` of the source: reassemble the matched text
with the extension replaced by the literal `webp`. -/
def replace_ext (m : ImgMatch) : List Char := m.g1 ++ m.g2 ++ webpL ++ m.g4

/-- Everything a successful match of `img_tag_pattern` tells us about the
input: the input splits as the four capture groups followed by the rest of
the text, and each group has the syntactic shape forced by the pattern. -/
def MatchShape (s : List Char) (m : ImgMatch) : Prop :=
  ∃ img ws mid sr q1 stem ext q2 run,
    m.g1 = '<' :: (img ++ (ws ++ mid ++ sr ++ [q1])) ∧
    img.map Char.toLower = ['i', 'm', 'g'] ∧
    ws ≠ [] ∧ (∀ x ∈ ws, isWsC x = true) ∧
    (∀ x ∈ mid, notGtC x = true) ∧
    sr.map Char.toLower = ['s', 'r', 'c', '='] ∧
    isQuoteC q1 = true ∧
    m.g2 = stem ++ ['.'] ∧ stem ≠ [] ∧ (∀ x ∈ stem, notQuoteC x = true) ∧
    m.g3 = ext ∧
    (ext.map Char.toLower = ['j', 'p', 'g'] ∨ ext.map Char.toLower = ['p', 'n', 'g']) ∧
    m.g4 = q2 :: (run ++ ['>']) ∧ isQuoteC q2 = true ∧ (∀ x ∈ run, notGtC x = true) ∧
    s = m.g1 ++ m.g2 ++ m.g3 ++ m.g4 ++ m.rest

def subScanF : Nat → List Char → List Char
  | 0, s => s
  | _ + 1, [] => []
  | n + 1, c :: t =>
    match matchImgAt (c :: t) with
    | some m => replace_ext m ++ subScanF n m.rest
    | none => c :: subScanF n t

/-- The substitution applied to a character list: the scan with enough
fuel. -/
def subScan (s : List Char) : List Char := subScanF s.length s

/-- `img_tag_pattern.sub(replace_ext, content)` on a string. -/
def imgTagSub (content : String) : String := String.mk (subScan content.data)

def startsWithCI : List Char → List Char → Bool
  | [], _ => true
  | _ :: _, [] => false
  | a :: pat, c :: s => (a.toLower == c.toLower) && startsWithCI pat s

def countOccCI (pat : List Char) : List Char → Nat
  | [] => 0
  | c :: t => (if startsWithCI pat (c :: t) = true then 1 else 0) + countOccCI pat t

/-- The literal `src=` whose occurrences drive every match. -/
def srcPat : List Char := ['s', 'r', 'c', '=']

/-- Whether the pattern matches anywhere in the text: the scan that
`re.sub` performs, reduced to the question answered by its first step at
each position. -/
def hasImgMatch : List Char → Bool
  | [] => false
  | c :: t => (matchImgAt (c :: t)).isSome || hasImgMatch t

/-- The number of (non-overlapping) matches the substitution scan
rewrites, with the same fuel discipline as `subScanF`. -/
def matchCountF : Nat → List Char → Nat
  | 0, _ => 0
  | _ + 1, [] => 0
  | n + 1, c :: t =>
    match matchImgAt (c :: t) with
    | some m => 1 + matchCountF n m.rest
    | none => matchCountF n t

/-- The number of matches rewritten by one pass of the substitution. -/
def matchCount (s : List Char) : Nat := matchCountF s.length s

/-- The text glued back together from the gaps and the matched regions of
one scan, with the original extensions (the input of the pass). -/
def glueIn : List (List Char × ImgMatch) → List Char → List Char
  | [], G => G
  | (A, m) :: rest, G => A ++ (m.g1 ++ (m.g2 ++ (m.g3 ++ (m.g4 ++ glueIn rest G))))

/-- The text glued back together with every matched extension replaced by
`webp` (the output of the pass). -/
def glueOut : List (List Char × ImgMatch) → List Char → List Char
  | [], G => G
  | (A, m) :: rest, G => A ++ (m.g1 ++ (m.g2 ++ (webpL ++ (m.g4 ++ glueOut rest G))))

/-- The invariants the scan establishes for its segment decomposition when
every `src=` occurrence of the input is the `src=` of a match: each match
has the pattern's shape, and each segment carries exactly the one `src=`
occurrence of its match. -/
def GlueFacts : List (List Char × ImgMatch) → List Char → Prop
  | [], G => countOccCI srcPat G = 0
  | (A, m) :: rest, G =>
      MatchShape (m.g1 ++ m.g2 ++ m.g3 ++ m.g4 ++ m.rest) m ∧
      countOccCI srcPat (glueIn ((A, m) :: rest) G) =
        1 + countOccCI srcPat (glueIn rest G) ∧
      GlueFacts rest G

/-- All case variants of a lowercase ASCII word: each letter independently
kept lowercase or raised to uppercase. -/
def allCasings : List Char → List (List Char)
  | [] => [[]]
  | a :: w => (allCasings w).flatMap (fun r => [a :: r, a.toUpper :: r])

/-- The tag `<TG SR="photo.EXT">` assembled from a tag-name casing, an
attribute-name casing and an extension casing. -/
def mkTagL (tg sr ext : List Char) : List Char :=
  ['<'] ++ tg ++ [' '] ++ sr ++ "=\"photo.".data ++ ext ++ "\">".data

/-- The same tag with the extension replaced by the lowercase `webp` and
every other character unchanged. -/
def mkResL (tg sr : List Char) : List Char :=
  ['<'] ++ tg ++ [' '] ++ sr ++ "=\"photo.webp\">".data

structure FSFile where
  dir : List String
  name : String
  content : String
deriving DecidableEq, Repr

/-- Path segments joined with `/`, as `os.walk`/`os.path.join` render
them on a POSIX system. -/
def joinSlash : List (List Char) → List Char
  | [] => []
  | [x] => x
  | x :: y :: t => x ++ '/' :: joinSlash (y :: t)

/-- The `dirpath` string produced by `os.walk` for a file's directory. -/
def dirpathStr (f : FSFile) : String := String.mk (joinSlash (f.dir.map String.data))

/-- The `os.path.join(dirpath, filename)` path of a file. -/
def filepathStr (f : FSFile) : String := dirpathStr f ++ "/" ++ f.name

/-- Case-sensitive literal prefix test on character lists. -/
def startsWithL : List Char → List Char → Bool
  | [], _ => true
  | _ :: _, [] => false
  | a :: pat, c :: s => (a == c) && startsWithL pat s

/-- The Python substring test `pat in s` (case-sensitive). -/
def hasSubstrL (pat : List Char) : List Char → Bool
  | [] => pat.isEmpty
  | c :: t => startsWithL pat (c :: t) || hasSubstrL pat t

/-- The test `'node_modules' in dirpath` of the source. -/
def inNodeModules (f : FSFile) : Bool :=
  hasSubstrL "node_modules".data (dirpathStr f).data

/-- The test `filename.endswith('.html')` of the source (case-sensitive). -/
def isHtmlName (name : String) : Bool := ".html".data.isSuffixOf name.data

/-- Processing of one file during the walk: the file as it is on disk
after the run, the path opened for reading (if any), and the notice
printed (if any). -/
def processOne (f : FSFile) : FSFile × Option String × Option String :=
  if inNodeModules f then (f, none, none)
  else if isHtmlName f.name then
    if imgTagSub f.content ≠ f.content then
      (⟨f.dir, f.name, imgTagSub f.content⟩, some (filepathStr f),
        some ("Updating " ++ filepathStr f))
    else (f, some (filepathStr f), none)
  else (f, none, none)

/-- The whole run of `update_html_files` over the files enumerated by the
walk: the files left on disk, the opened paths, and the printed notices,
in walk order. -/
def update_html_files (fs : List FSFile) :
    List FSFile × List String × List String :=
  (fs.map (fun f => (processOne f).1),
   fs.filterMap (fun f => (processOne f).2.1),
   fs.filterMap (fun f => (processOne f).2.2))

def exampleTag : List Char := "<img class=\"hero\" src='pic.jpg' alt=\"x\">".data

def exampleMatch : ImgMatch :=
  ⟨"<img class=\"hero\" src='".data, "pic.".data, "jpg".data, "' alt=\"x\">".data, []⟩

def exampleNodeModulesFile : FSFile :=
  ⟨[".", "node_modules", "pkg"], "cached.html", "<img src=\"x.jpg\">"⟩

def exampleHtmlFile : FSFile := ⟨["."], "page.html", "<img src=\"x.jpg\">"⟩

def exampleUpperFile : FSFile := ⟨["."], "page.HTML", "<img src=\"x.jpg\">"⟩

def exampleUrlTag : List Char := "<img src=\"http://example.com/pic.jpg\">".data

def exampleUrlMatch : ImgMatch :=
  ⟨"<img src=\"".data, "http://example.com/pic.".data, "jpg".data, "\">".data, []⟩

/-! ### Soundness of the matcher

Every successful match decomposes the input according to the shape of the
pattern.  These inversion lemmas are the backbone of all later proofs. -/

theorem starSplits_spec {p : Char → Bool} {s : List Char} {cr : List Char × List Char}
    (h : cr ∈ starSplits p s) : cr.1 ++ cr.2 = s ∧ ∀ x ∈ cr.1, p x = true := by
  unfold starSplits at h
  obtain ⟨i, hi, hcr⟩ := List.mem_map.mp h
  have hi' : i ≤ (s.takeWhile p).length := by
    have := List.mem_range.mp (List.mem_reverse.mp hi)
    omega
  subst hcr
  refine ⟨List.take_append_drop i s, ?_⟩
  intro x hx
  have htw : s.take i = (s.takeWhile p).take i := by
    conv_lhs => rw [← List.takeWhile_append_dropWhile (p := p) (l := s)]
    rw [List.take_append_eq_append_take, Nat.sub_eq_zero_of_le hi', List.take_zero,
      List.append_nil]
  rw [htw] at hx
  exact List.mem_takeWhile_imp (List.mem_of_mem_take hx)

theorem firstSome_some {l : List α} {k : α → Option β} {b : β}
    (h : firstSome l k = some b) : ∃ a ∈ l, k a = some b := by
  induction l with
  | nil => simp [firstSome] at h
  | cons a l ih =>
    rw [firstSome] at h
    cases hk : k a with
    | some b' =>
      rw [hk] at h
      have h' : some b' = some b := h
      exact ⟨a, List.mem_cons_self a l, hk.trans h'⟩
    | none =>
      rw [hk] at h
      have h' : firstSome l k = some b := h
      obtain ⟨a', ha', hk'⟩ := ih h'
      exact ⟨a', List.mem_cons_of_mem a ha', hk'⟩

theorem tryStar_some {p : Char → Bool} {s : List Char} {k} {b : β}
    (h : tryStar p s k = some b) :
    ∃ c r, c ++ r = s ∧ (∀ x ∈ c, p x = true) ∧ k c r = some b := by
  obtain ⟨cr, hmem, hk⟩ := firstSome_some h
  obtain ⟨heq, hall⟩ := starSplits_spec hmem
  exact ⟨cr.1, cr.2, heq, hall, hk⟩

theorem tryPlus_some {p : Char → Bool} {s : List Char} {k} {b : β}
    (h : tryPlus p s k = some b) :
    ∃ c r, c ++ r = s ∧ c ≠ [] ∧ (∀ x ∈ c, p x = true) ∧ k c r = some b := by
  obtain ⟨cr, hmem, hk⟩ := firstSome_some h
  have hmem' := List.mem_filter.mp hmem
  obtain ⟨heq, hall⟩ := starSplits_spec hmem'.1
  refine ⟨cr.1, cr.2, heq, ?_, hall, hk⟩
  have := hmem'.2
  simpa [List.isEmpty_iff] using this

theorem stripCI_some : ∀ {pat s r : List Char}, stripCI pat s = some r →
    ∃ q, s = q ++ r ∧ q.map Char.toLower = pat.map Char.toLower ∧ q.length = pat.length := by
  intro pat
  induction pat with
  | nil =>
    intro s r h
    rw [stripCI] at h
    have h' : s = r := Option.some.inj h
    exact ⟨[], by simpa using h', rfl, rfl⟩
  | cons a pat ih =>
    intro s r h
    cases s with
    | nil => rw [stripCI] at h; exact absurd h (by simp)
    | cons c s' =>
      rw [stripCI] at h
      split at h
      next heq =>
        obtain ⟨q, hq, hmap, hlen⟩ := ih h
        refine ⟨c :: q, by simp [hq], ?_, by simp [hlen]⟩
        simp only [List.map_cons, hmap]
        congr 1
      next => exact absurd h (by simp)

theorem stripCI_take {pat s r : List Char} (h : stripCI pat s = some r) :
    s.take pat.length ++ r = s ∧
      (s.take pat.length).map Char.toLower = pat.map Char.toLower ∧
      (s.take pat.length).length = pat.length := by
  obtain ⟨q, hq, hmap, hlen⟩ := stripCI_some h
  have hqt : q = s.take pat.length := by rw [hq, ← hlen, List.take_left]
  rw [← hqt]
  exact ⟨hq.symm, hmap, hlen⟩

theorem matchExt_some {s ext r : List Char} (h : matchExt s = some (ext, r)) :
    s = ext ++ r ∧
      (ext.map Char.toLower = ['j', 'p', 'g'] ∨ ext.map Char.toLower = ['p', 'n', 'g']) ∧
      ext.length = 3 := by
  unfold matchExt at h
  split at h
  next r' hj =>
    have h' : some (s.take 3, r') = some (ext, r) := h
    have h2 : (s.take 3, r') = (ext, r) := Option.some.inj h'
    have h3 : s.take 3 = ext := congrArg Prod.fst h2
    have h4 : r' = r := congrArg Prod.snd h2
    subst h3; subst h4
    obtain ⟨hq, hmap, hlen⟩ := stripCI_take hj
    exact ⟨hq.symm, Or.inl (hmap.trans (by decide)), hlen⟩
  next hj =>
    split at h
    next r' hp =>
      have h' : some (s.take 3, r') = some (ext, r) := h
      have h2 : (s.take 3, r') = (ext, r) := Option.some.inj h'
      have h3 : s.take 3 = ext := congrArg Prod.fst h2
      have h4 : r' = r := congrArg Prod.snd h2
      subst h3; subst h4
      obtain ⟨hq, hmap, hlen⟩ := stripCI_take hp
      exact ⟨hq.symm, Or.inr (hmap.trans (by decide)), hlen⟩
    next => exact absurd h (by simp)

theorem matchTail4_some {s g4 r : List Char} (h : matchTail4 s = some (g4, r)) :
    ∃ q run, s = g4 ++ r ∧ g4 = q :: (run ++ ['>']) ∧ isQuoteC q = true ∧
      ∀ x ∈ run, notGtC x = true := by
  cases s with
  | nil => rw [matchTail4] at h; exact absurd h (by simp)
  | cons q s1 =>
    rw [matchTail4] at h
    split at h
    next hq =>
      split at h
      next c r2 hdw =>
        split at h
        next hc =>
          subst hc
          have h' : some (q :: (s1.takeWhile notGtC ++ ['>']), r2) = some (g4, r) := h
          have h2 := Option.some.inj h'
          have h3 : q :: (s1.takeWhile notGtC ++ ['>']) = g4 := congrArg Prod.fst h2
          have h4 : r2 = r := congrArg Prod.snd h2
          refine ⟨q, s1.takeWhile notGtC, ?_, h3.symm, hq,
            fun x hx => List.mem_takeWhile_imp hx⟩
          have hs1 : s1 = s1.takeWhile notGtC ++ '>' :: r2 := by
            conv_lhs => rw [← List.takeWhile_append_dropWhile (p := notGtC) (l := s1)]
            rw [hdw]
          rw [← h3, ← h4]
          conv_lhs => rw [hs1]
          simp
        next => exact absurd h (by simp)
      next => exact absurd h (by simp)
    next => exact absurd h (by simp)

theorem matchDotExt_some {stem s8 g2 g3 g4 rest : List Char}
    (h : matchDotExt stem s8 = some (g2, g3, g4, rest)) :
    g2 = stem ++ ['.'] ∧ s8 = g3 ++ g4 ++ rest ∧
      (g3.map Char.toLower = ['j', 'p', 'g'] ∨ g3.map Char.toLower = ['p', 'n', 'g']) ∧
      g3.length = 3 ∧
      ∃ q2 run, g4 = q2 :: (run ++ ['>']) ∧ isQuoteC q2 = true ∧
        ∀ x ∈ run, notGtC x = true := by
  unfold matchDotExt at h
  split at h
  next ext s9 hext =>
    split at h
    next g4' rest' htail =>
      have h' : some (stem ++ ['.'], ext, g4', rest') = some (g2, g3, g4, rest) := h
      have h2 := Option.some.inj h'
      obtain ⟨ha, hb, hc, hd⟩ : stem ++ ['.'] = g2 ∧ ext = g3 ∧ g4' = g4 ∧ rest' = rest := by
        refine ⟨congrArg Prod.fst h2, ?_, ?_, ?_⟩
        · exact congrArg (fun x => x.2.1) h2
        · exact congrArg (fun x => x.2.2.1) h2
        · exact congrArg (fun x => x.2.2.2) h2
      subst ha; subst hb; subst hc; subst hd
      obtain ⟨hs8, hmap, hlen⟩ := matchExt_some hext
      obtain ⟨q2, run, hs9, hg4, hq2, hrun⟩ := matchTail4_some htail
      exact ⟨rfl, by rw [hs8, hs9, List.append_assoc], hmap, hlen, q2, run, hg4, hq2, hrun⟩
    next => exact absurd h (by simp)
  next => exact absurd h (by simp)

theorem matchVal_some {s g2 g3 g4 rest : List Char}
    (h : matchVal s = some (g2, g3, g4, rest)) :
    ∃ stem q2 run, g2 = stem ++ ['.'] ∧ stem ≠ [] ∧ (∀ x ∈ stem, notQuoteC x = true) ∧
      s = g2 ++ g3 ++ g4 ++ rest ∧
      (g3.map Char.toLower = ['j', 'p', 'g'] ∨ g3.map Char.toLower = ['p', 'n', 'g']) ∧
      g3.length = 3 ∧
      g4 = q2 :: (run ++ ['>']) ∧ isQuoteC q2 = true ∧ (∀ x ∈ run, notGtC x = true) := by
  obtain ⟨stem, s7, hsplit, hne, hall, hk⟩ := tryPlus_some h
  cases s7 with
  | nil => exact absurd hk (by simp)
  | cons c s8 =>
    have hk' : (if c = '.' then matchDotExt stem s8 else none) = some (g2, g3, g4, rest) := hk
    split at hk'
    next hc =>
      subst hc
      obtain ⟨hg2, hs8, hmap, hlen, q2, run, hg4, hq2, hrun⟩ := matchDotExt_some hk'
      refine ⟨stem, q2, run, hg2, hne, hall, ?_, hmap, hlen, hg4, hq2, hrun⟩
      rw [← hsplit, hs8, hg2]
      simp
    next => exact absurd hk' (by simp)

theorem matchSrcEq_some {ws mid s4 g1t g2 g3 g4 rest : List Char}
    (h : matchSrcEq ws mid s4 = some (g1t, g2, g3, g4, rest)) :
    ∃ sr q1 s6, g1t = ws ++ mid ++ sr ++ [q1] ∧
      sr.map Char.toLower = ['s', 'r', 'c', '='] ∧ sr.length = 4 ∧ isQuoteC q1 = true ∧
      s4 = sr ++ q1 :: s6 ∧ matchVal s6 = some (g2, g3, g4, rest) := by
  unfold matchSrcEq at h
  split at h
  next q1 s6 hsr =>
    split at h
    next hq1 =>
      split at h
      next g2' g3' g4' rest' hval =>
        have h' : some (ws ++ mid ++ s4.take 4 ++ [q1], g2', g3', g4', rest') =
            some (g1t, g2, g3, g4, rest) := h
        have h2 := Option.some.inj h'
        obtain ⟨ha, hb, hc, hd, he⟩ :
            ws ++ mid ++ s4.take 4 ++ [q1] = g1t ∧ g2' = g2 ∧ g3' = g3 ∧ g4' = g4 ∧
              rest' = rest := by
          refine ⟨congrArg Prod.fst h2, congrArg (fun x => x.2.1) h2,
            congrArg (fun x => x.2.2.1) h2, congrArg (fun x => x.2.2.2.1) h2,
            congrArg (fun x => x.2.2.2.2) h2⟩
        subst hb; subst hc; subst hd; subst he
        obtain ⟨hs4, hmap, hlen⟩ := stripCI_take hsr
        refine ⟨s4.take 4, q1, s6, ha.symm, hmap.trans (by decide), hlen, hq1,
          hs4.symm, hval⟩
      next => exact absurd h (by simp)
    next => exact absurd h (by simp)
  next => exact absurd h (by simp)
  next => exact absurd h (by simp)

theorem matchAfterImg_some {s2 g1t g2 g3 g4 rest : List Char}
    (h : matchAfterImg s2 = some (g1t, g2, g3, g4, rest)) :
    ∃ ws mid sr q1 s6, g1t = ws ++ mid ++ sr ++ [q1] ∧ ws ≠ [] ∧
      (∀ x ∈ ws, isWsC x = true) ∧ (∀ x ∈ mid, notGtC x = true) ∧
      sr.map Char.toLower = ['s', 'r', 'c', '='] ∧ sr.length = 4 ∧ isQuoteC q1 = true ∧
      s2 = ws ++ mid ++ sr ++ q1 :: s6 ∧ matchVal s6 = some (g2, g3, g4, rest) := by
  obtain ⟨ws, s3, hws, hwsne, hwsall, hk⟩ := tryPlus_some h
  obtain ⟨mid, s4, hmid, hmidall, hk2⟩ := tryStar_some hk
  obtain ⟨sr, q1, s6, hg1t, hmap, hlen, hq1, hs4, hval⟩ := matchSrcEq_some hk2
  refine ⟨ws, mid, sr, q1, s6, hg1t, hwsne, hwsall, hmidall, hmap, hlen, hq1, ?_, hval⟩
  rw [← hws, ← hmid, hs4]
  simp

theorem matchImgAt_shape {s : List Char} {m : ImgMatch}
    (h : matchImgAt s = some m) : MatchShape s m := by
  cases s with
  | nil => exact absurd h (by simp [matchImgAt])
  | cons c s1 =>
    have h' : (if c = '<' then matchImgTag s1 else none) = some m := h
    split at h'
    next hc =>
      subst hc
      unfold matchImgTag at h'
      split at h'
      next s2 himg =>
        split at h'
        next g1t g2' g3' g4' rest' hai =>
          have hm : m = ⟨'<' :: (s1.take 3 ++ g1t), g2', g3', g4', rest'⟩ :=
            (Option.some.inj h').symm
          subst hm
          obtain ⟨hs1, himap, hilen⟩ := stripCI_take himg
          obtain ⟨ws, mid, sr, q1, s6, hg1t, hwsne, hws, hmid, hsrmap, _hsrlen, hq1,
            hs2, hval⟩ := matchAfterImg_some hai
          obtain ⟨stem, q2, run, hg2, hstemne, hstem, hs6, hextmap, _hextlen, hg4,
            hq2, hrun⟩ := matchVal_some hval
          have hl3 : (['i', 'm', 'g'] : List Char).length = 3 := rfl
          rw [hl3] at hs1 himap
          refine ⟨s1.take 3, ws, mid, sr, q1, stem, g3', q2, run, by rw [hg1t],
            himap.trans (by decide), hwsne, hws, hmid, hsrmap, hq1, hg2, hstemne,
            hstem, rfl, hextmap, hg4, hq2, hrun, ?_⟩
          have hbig : s1 = s1.take 3 ++ (ws ++ mid ++ sr ++ q1 ::
              (g2' ++ g3' ++ g4' ++ rest')) := by
            conv_lhs => rw [← hs1]
            rw [hs2, hs6]
          show '<' :: s1 = _
          conv_lhs => rw [hbig]
          rw [hg1t]
          simp
        next => exact absurd h' (by simp)
      next => exact absurd h' (by simp)
    next => exact absurd h' (by simp)

theorem matchImgAt_decomp {s : List Char} {m : ImgMatch} (h : matchImgAt s = some m) :
    s = m.g1 ++ m.g2 ++ m.g3 ++ m.g4 ++ m.rest := by
  obtain ⟨_, _, _, _, _, _, _, _, _, _, _, _, _, _, _, _, _, _, _, _, _, _, _, _,
    hs⟩ := matchImgAt_shape h
  exact hs

theorem matchImgAt_rest_lt {s : List Char} {m : ImgMatch}
    (h : matchImgAt s = some m) : m.rest.length < s.length := by
  obtain ⟨img, ws, mid, sr, q1, stem, ext, q2, run, hg1, _, _, _, _, _, _, _, _, _, _,
    _, _, _, _, hs⟩ := matchImgAt_shape h
  rw [hs, hg1]
  simp
  omega

/-! ### The global substitution

`img_tag_pattern.sub(replace_ext, content)` scans left to right: at each
position it tries the pattern; on a match it emits the replacement and
resumes after the matched text, otherwise it copies one character.  The
scan is phrased with an explicit fuel so that it is structurally recursive
(and hence computable by `decide`/`rfl`); `matchImgAt_rest_lt` shows the
fuel `s.length` always suffices. -/

theorem subScanF_fuel :
    ∀ n n' (s : List Char), s.length ≤ n → s.length ≤ n' → subScanF n s = subScanF n' s := by
  intro n
  induction n with
  | zero =>
    intro n' s hn _
    have hs : s = [] := List.eq_nil_of_length_eq_zero (Nat.le_zero.mp hn)
    subst hs
    cases n' <;> rfl
  | succ n ih =>
    intro n' s hn hn'
    cases s with
    | nil => cases n' <;> rfl
    | cons c t =>
      cases n' with
      | zero => exact absurd hn' (by simp)
      | succ n' =>
        rw [subScanF, subScanF]
        cases hm : matchImgAt (c :: t) with
        | some m =>
          have hlt := matchImgAt_rest_lt hm
          have h1 : m.rest.length ≤ n := by simp at hlt hn; omega
          have h2 : m.rest.length ≤ n' := by simp at hlt hn'; omega
          show replace_ext m ++ subScanF n m.rest = replace_ext m ++ subScanF n' m.rest
          rw [ih n' m.rest h1 h2]
        | none =>
          have h1 : t.length ≤ n := by simp at hn; omega
          have h2 : t.length ≤ n' := by simp at hn'; omega
          show c :: subScanF n t = c :: subScanF n' t
          rw [ih n' t h1 h2]

theorem subScan_nil : subScan [] = [] := rfl

/-! ### Counting case-insensitive occurrences of a literal

The analysis of repeated substitution hinges on where the literal `src=`
can occur.  `countOccCI pat s` counts the positions of `s` at which the
lowercase literal `pat` matches case-insensitively. -/

theorem startsWithCI_of_map {pat p : List Char} (z : List Char)
    (h : p.map Char.toLower = pat.map Char.toLower) :
    startsWithCI pat (p ++ z) = true := by
  induction pat generalizing p z with
  | nil => rfl
  | cons a pat ih =>
    cases p with
    | nil => simp at h
    | cons c p' =>
      simp only [List.map_cons] at h
      obtain ⟨h1, h2⟩ := List.cons.inj h
      rw [List.cons_append, startsWithCI, ih z h2]
      simp [h1]

theorem countOccCI_cons_ge (pat : List Char) (c : Char) (t : List Char) :
    countOccCI pat t ≤ countOccCI pat (c :: t) := by
  rw [countOccCI]
  omega

theorem countOccCI_append_ge (pat x y : List Char) :
    countOccCI pat y ≤ countOccCI pat (x ++ y) := by
  induction x with
  | nil => simp
  | cons c x ih =>
    rw [List.cons_append]
    exact le_trans ih (countOccCI_cons_ge pat c (x ++ y))

theorem countOccCI_drop_le (pat : List Char) : ∀ (j : Nat) (t : List Char),
    countOccCI pat (t.drop j) ≤ countOccCI pat t := by
  intro j
  induction j with
  | zero => intro t; simp
  | succ j ih =>
    intro t
    cases t with
    | nil => simp
    | cons c t =>
      rw [List.drop_succ_cons]
      exact le_trans (ih t) (countOccCI_cons_ge pat c t)

theorem countOccCI_pos {pat s : List Char} (hp : pat ≠ []) (h : startsWithCI pat s = true) :
    1 ≤ countOccCI pat s := by
  cases pat with
  | nil => exact absurd rfl hp
  | cons a pat =>
    cases s with
    | nil => rw [startsWithCI] at h; exact absurd h (by simp)
    | cons c t =>
      rw [countOccCI, if_pos h]
      omega

theorem countOccCI_pos_drop {pat s : List Char} {j : Nat} (hp : pat ≠ [])
    (h : startsWithCI pat (s.drop j) = true) : 1 ≤ countOccCI pat s :=
  le_trans (countOccCI_pos hp h) (countOccCI_drop_le pat j s)

theorem countOccCI_two {pat : List Char} (hp : pat ≠ []) :
    ∀ (s : List Char) (j₁ j₂ : Nat), j₁ < j₂ →
      startsWithCI pat (s.drop j₁) = true → startsWithCI pat (s.drop j₂) = true →
      2 ≤ countOccCI pat s := by
  intro s
  induction s with
  | nil =>
    intro j₁ j₂ _ h₁ _
    rw [List.drop_nil] at h₁
    cases pat with
    | nil => exact absurd rfl hp
    | cons a pat => rw [startsWithCI] at h₁; exact absurd h₁ (by simp)
  | cons c t ih =>
    intro j₁ j₂ hlt h₁ h₂
    cases j₁ with
    | zero =>
      obtain ⟨k, rfl⟩ : ∃ k, j₂ = k + 1 := ⟨j₂ - 1, by omega⟩
      rw [List.drop_succ_cons] at h₂
      rw [List.drop_zero] at h₁
      rw [countOccCI, if_pos h₁]
      have := countOccCI_pos_drop hp h₂
      omega
    | succ k =>
      obtain ⟨k', rfl⟩ : ∃ k', j₂ = k' + 1 := ⟨j₂ - 1, by omega⟩
      rw [List.drop_succ_cons] at h₁ h₂
      have h3 := ih k k' (by omega) h₁ h₂
      have h4 := countOccCI_cons_ge pat c t
      omega

theorem startsWithCI_shrink : ∀ {pat x z : List Char}, startsWithCI pat (x ++ z) = true →
    pat.length ≤ x.length → startsWithCI pat x = true := by
  intro pat
  induction pat with
  | nil => intro x z _ _; rfl
  | cons a pat ih =>
    intro x z h hl
    cases x with
    | nil => simp at hl
    | cons c x' =>
      rw [List.cons_append, startsWithCI] at h
      rw [startsWithCI]
      simp only [Bool.and_eq_true] at h ⊢
      exact ⟨h.1, ih h.2 (by simp at hl ⊢; omega)⟩

theorem startsWithCI_grow : ∀ {pat x : List Char} (z : List Char),
    startsWithCI pat x = true → pat.length ≤ x.length →
    startsWithCI pat (x ++ z) = true := by
  intro pat
  induction pat with
  | nil => intro x z _ _; rfl
  | cons a pat ih =>
    intro x z h hl
    cases x with
    | nil => simp at hl
    | cons c x' =>
      rw [startsWithCI] at h
      rw [List.cons_append, startsWithCI]
      simp only [Bool.and_eq_true] at h ⊢
      exact ⟨h.1, ih z h.2 (by simp at hl ⊢; omega)⟩

theorem startsWithCI_hit : ∀ {pat x : List Char} {u₀ : Char} {z : List Char},
    startsWithCI pat (x ++ u₀ :: z) = true → x.length < pat.length →
    ∃ a ∈ pat, a.toLower = u₀.toLower := by
  intro pat
  induction pat with
  | nil => intro x u₀ z _ hl; simp at hl
  | cons a pat ih =>
    intro x u₀ z h hl
    cases x with
    | nil =>
      rw [List.nil_append, startsWithCI] at h
      simp only [Bool.and_eq_true, beq_iff_eq] at h
      exact ⟨a, List.mem_cons_self a pat, h.1⟩
    | cons c x' =>
      rw [List.cons_append, startsWithCI] at h
      simp only [Bool.and_eq_true] at h
      obtain ⟨a', ha', heq⟩ := ih h.2 (by simp at hl ⊢; omega)
      exact ⟨a', List.mem_cons_of_mem a ha', heq⟩

theorem startsWithCI_short : ∀ {pat s : List Char}, s.length < pat.length →
    startsWithCI pat s = false := by
  intro pat
  induction pat with
  | nil => intro s h; simp at h
  | cons a pat ih =>
    intro s h
    cases s with
    | nil => rfl
    | cons c t =>
      rw [startsWithCI, ih (by simp at h ⊢; omega)]
      simp

theorem countOccCI_free_left {pat u y : List Char} (hp : pat ≠ [])
    (hfree : ∀ c ∈ u, ∀ a ∈ pat, a.toLower ≠ c.toLower) :
    countOccCI pat (u ++ y) = countOccCI pat y := by
  induction u with
  | nil => rfl
  | cons c u ih =>
    have hfree' : ∀ x ∈ u, ∀ a ∈ pat, a.toLower ≠ x.toLower :=
      fun x hx => hfree x (List.mem_cons_of_mem c hx)
    have hne : ¬startsWithCI pat (c :: (u ++ y)) = true := by
      intro hsw
      cases pat with
      | nil => exact hp rfl
      | cons a pat' =>
        rw [startsWithCI] at hsw
        simp only [Bool.and_eq_true, beq_iff_eq] at hsw
        exact hfree c (List.mem_cons_self _ _) a (List.mem_cons_self _ _) hsw.1
    rw [List.cons_append, countOccCI, if_neg hne, ih hfree']
    omega

theorem countOccCI_splice (pat : List Char) {u y : List Char} (hp : pat ≠ []) (hu : u ≠ [])
    (hfree : ∀ c ∈ u, ∀ a ∈ pat, a.toLower ≠ c.toLower) :
    ∀ x : List Char, countOccCI pat (x ++ (u ++ y)) = countOccCI pat x + countOccCI pat y := by
  intro x
  induction x with
  | nil =>
    rw [List.nil_append, countOccCI_free_left hp hfree, countOccCI]
    omega
  | cons c x' ih =>
    rw [List.cons_append, countOccCI, countOccCI]
    have hiff : startsWithCI pat (c :: (x' ++ (u ++ y))) = startsWithCI pat (c :: x') := by
      rcases Nat.lt_or_ge (c :: x').length pat.length with hgt | hle
      · have hf : startsWithCI pat (c :: x') = false := startsWithCI_short hgt
        rw [hf]
        cases u with
        | nil => exact absurd rfl hu
        | cons u₀ u' =>
          cases hsw2 : startsWithCI pat (c :: (x' ++ (u₀ :: u' ++ y))) with
          | false => rfl
          | true =>
            have h' : startsWithCI pat ((c :: x') ++ u₀ :: (u' ++ y)) = true := by
              rw [List.cons_append]
              simpa using hsw2
            obtain ⟨a, ha, heq⟩ := startsWithCI_hit h' hgt
            exact absurd heq (hfree u₀ (List.mem_cons_self _ _) a ha)
      · cases hsw : startsWithCI pat (c :: x') with
        | true =>
          have hg := startsWithCI_grow (u ++ y) hsw hle
          rw [List.cons_append] at hg
          rw [hg]
        | false =>
          cases hsw2 : startsWithCI pat (c :: (x' ++ (u ++ y))) with
          | false => rfl
          | true =>
            have hsw3 : startsWithCI pat (c :: x') = true := by
              refine startsWithCI_shrink (z := u ++ y) ?_ hle
              rw [List.cons_append]
              exact hsw2
            rw [hsw3] at hsw
            exact absurd hsw (by simp)
    rw [hiff, ih]
    omega

theorem countOccCI_occ_plus (pat : List Char) (hp : pat ≠ []) :
    ∀ (u p v s : List Char), s = u ++ (p ++ v) →
      p.map Char.toLower = pat.map Char.toLower →
      1 + countOccCI pat v ≤ countOccCI pat s := by
  intro u
  induction u with
  | nil =>
    intro p v s hs hmap
    subst hs
    rw [List.nil_append]
    cases p with
    | nil =>
      cases pat with
      | nil => exact absurd rfl hp
      | cons a pat' => simp at hmap
    | cons c p' =>
      rw [List.cons_append, countOccCI]
      have hsw : startsWithCI pat (c :: (p' ++ v)) = true := by
        have h' := startsWithCI_of_map v hmap
        rw [List.cons_append] at h'
        exact h'
      rw [if_pos hsw]
      have := countOccCI_append_ge pat p' v
      omega
  | cons c u' ih =>
    intro p v s hs hmap
    subst hs
    rw [List.cons_append, countOccCI]
    have := ih p v (u' ++ (p ++ v)) rfl hmap
    omega

theorem subScan_none {c : Char} {t : List Char} (h : matchImgAt (c :: t) = none) :
    subScan (c :: t) = c :: subScan t := by
  show subScanF (c :: t).length (c :: t) = _
  rw [List.length_cons, subScanF, h]
  rfl

theorem subScan_some {s : List Char} {m : ImgMatch} (h : matchImgAt s = some m) :
    subScan s = replace_ext m ++ subScan m.rest := by
  cases s with
  | nil => exact absurd h (by simp [matchImgAt])
  | cons c t =>
    show subScanF (c :: t).length (c :: t) = _
    rw [List.length_cons, subScanF, h]
    have hlt := matchImgAt_rest_lt h
    show replace_ext m ++ subScanF t.length m.rest = _
    rw [subScanF_fuel t.length m.rest.length m.rest (by simp at hlt; omega) (le_refl _)]
    rfl

/-! ### Scanning lemmas -/

theorem no_src_no_match {t : List Char} (h : countOccCI srcPat t = 0) :
    ∀ i, matchImgAt (t.drop i) = none := by
  intro i
  cases hm : matchImgAt (t.drop i) with
  | none => rfl
  | some m =>
    exfalso
    obtain ⟨img, ws, mid, sr, q1, stem, ext, q2, run, hg1, _, _, _, _, hsrmap, _, _,
      _, _, _, _, _, _, _, hs⟩ := matchImgAt_shape hm
    have hsr' : sr.map Char.toLower = srcPat.map Char.toLower := by
      rw [hsrmap]; decide
    have hsplit : t.drop i =
        ('<' :: (img ++ ws ++ mid)) ++
          (sr ++ (q1 :: (m.g2 ++ (m.g3 ++ (m.g4 ++ m.rest))))) := by
      rw [hs, hg1]; simp
    have hocc := countOccCI_occ_plus srcPat (by decide) _ _ _ _ hsplit hsr'
    have hle := countOccCI_drop_le srcPat i t
    omega

theorem subScan_id {s : List Char} (h : ∀ i, matchImgAt (s.drop i) = none) :
    subScan s = s := by
  induction s with
  | nil => rfl
  | cons c t ih =>
    have h0 := h 0
    rw [List.drop_zero] at h0
    have ht : ∀ i, matchImgAt (t.drop i) = none := by
      intro i
      have := h (i + 1)
      rwa [List.drop_succ_cons] at this
    rw [subScan_none h0, ih ht]

theorem subScan_struct (s : List Char) :
    (subScan s = s ∧ ∀ i, matchImgAt (s.drop i) = none) ∨
    ∃ B m, matchImgAt (m.g1 ++ m.g2 ++ m.g3 ++ m.g4 ++ m.rest) = some m ∧
      s = B ++ (m.g1 ++ m.g2 ++ m.g3 ++ m.g4 ++ m.rest) ∧
      subScan s = B ++ (replace_ext m ++ subScan m.rest) := by
  induction s with
  | nil =>
    left
    refine ⟨rfl, fun i => ?_⟩
    rw [List.drop_nil]
    rfl
  | cons c t ih =>
    cases hm : matchImgAt (c :: t) with
    | some m =>
      right
      have hdec := matchImgAt_decomp hm
      refine ⟨[], m, ?_, by simpa using hdec, ?_⟩
      · rw [← hdec]; exact hm
      · rw [subScan_some hm]; simp
    | none =>
      rcases ih with ⟨hid, hnone⟩ | ⟨B, m, hmm, hseq, hsub⟩
      · left
        refine ⟨by rw [subScan_none hm, hid], fun i => ?_⟩
        cases i with
        | zero => rw [List.drop_zero]; exact hm
        | succ i => rw [List.drop_succ_cons]; exact hnone i
      · right
        refine ⟨c :: B, m, hmm, by rw [List.cons_append, ← hseq], ?_⟩
        rw [subScan_none hm, hsub, List.cons_append]

/-! ### No match survives in the output of the scan

If the input contains at most one occurrence of `src=`, the output of the
substitution admits no match anywhere, hence a second application of the
substitution is the identity. -/

theorem quote_split : ∀ (T : List Char) {T' : List Char} {a b : Char} {y y' : List Char},
    (∀ c ∈ T, notQuoteC c = true) → (∀ c ∈ T', notQuoteC c = true) →
    isQuoteC a = true → isQuoteC b = true →
    T ++ a :: y = T' ++ b :: y' → T = T' ∧ a = b ∧ y = y' := by
  intro T
  induction T with
  | nil =>
    intro T' a b y y' _ hT' ha hb heq
    cases T' with
    | nil =>
      rw [List.nil_append, List.nil_append] at heq
      obtain ⟨h1, h2⟩ := List.cons.inj heq
      exact ⟨rfl, h1, h2⟩
    | cons c T'' =>
      rw [List.nil_append, List.cons_append] at heq
      obtain ⟨h1, _⟩ := List.cons.inj heq
      exfalso
      have hc := hT' c (List.mem_cons_self _ _)
      rw [← h1, notQuoteC, ha] at hc
      simp at hc
  | cons d T₂ ih =>
    intro T' a b y y' hT hT' ha hb heq
    cases T' with
    | nil =>
      rw [List.nil_append, List.cons_append] at heq
      obtain ⟨h1, _⟩ := List.cons.inj heq
      exfalso
      have hd := hT d (List.mem_cons_self _ _)
      rw [h1, notQuoteC, hb] at hd
      simp at hd
    | cons d' T₂' =>
      rw [List.cons_append, List.cons_append] at heq
      obtain ⟨h1, h2⟩ := List.cons.inj heq
      have hT₂ : ∀ c ∈ T₂, notQuoteC c = true := fun c hc => hT c (List.mem_cons_of_mem _ hc)
      have hT₂' : ∀ c ∈ T₂', notQuoteC c = true :=
        fun c hc => hT' c (List.mem_cons_of_mem _ hc)
      obtain ⟨hTeq, hab, hyy⟩ := ih hT₂ hT₂' ha hb h2
      exact ⟨by rw [h1, hTeq], hab, hyy⟩

theorem letter_not_quote {c : Char}
    (h : c.toLower ∈ (['j', 'p', 'g'] : List Char) ∨
      c.toLower ∈ (['p', 'n', 'g'] : List Char)) :
    notQuoteC c = true := by
  cases hq : isQuoteC c with
  | false => rw [notQuoteC, hq]; rfl
  | true =>
    exfalso
    have hc : c = '"' ∨ c = '\'' := by
      rw [isQuoteC] at hq
      simp only [Bool.or_eq_true, beq_iff_eq] at hq
      exact hq
    rcases hc with rfl | rfl <;> rcases h with h | h <;> revert h <;> decide

theorem ext_not_src_chars {ext : List Char}
    (h : ext.map Char.toLower = ['j', 'p', 'g'] ∨ ext.map Char.toLower = ['p', 'n', 'g']) :
    ∀ c ∈ ext, ∀ a ∈ srcPat, a.toLower ≠ c.toLower := by
  intro c hc a ha
  have hcl : c.toLower ∈ (['j', 'p', 'g'] : List Char) ∨
      c.toLower ∈ (['p', 'n', 'g'] : List Char) := by
    cases h with
    | inl h => exact Or.inl (h ▸ List.mem_map_of_mem Char.toLower hc)
    | inr h => exact Or.inr (h ▸ List.mem_map_of_mem Char.toLower hc)
  fin_cases ha <;> rcases hcl with hcl | hcl <;>
    simp only [List.mem_cons, List.not_mem_nil, or_false] at hcl <;>
    rcases hcl with h1 | h1 | h1 <;> rw [h1] <;> decide

theorem webp_not_src_chars : ∀ c ∈ webpL, ∀ a ∈ srcPat, a.toLower ≠ c.toLower := by decide

theorem uniq_split (pat : List Char) (hp : pat ≠ []) {s u₁ p₁ v₁ u₂ p₂ v₂ : List Char}
    (h1 : s = u₁ ++ (p₁ ++ v₁)) (h2 : s = u₂ ++ (p₂ ++ v₂))
    (e1 : p₁.map Char.toLower = pat.map Char.toLower)
    (e2 : p₂.map Char.toLower = pat.map Char.toLower)
    (hc : countOccCI pat s ≤ 1) : u₁ = u₂ ∧ p₁ = p₂ ∧ v₁ = v₂ := by
  have hl1 : p₁.length = pat.length := by
    have := congrArg List.length e1
    simpa using this
  have hl2 : p₂.length = pat.length := by
    have := congrArg List.length e2
    simpa using this
  have hocc1 : startsWithCI pat (s.drop u₁.length) = true := by
    rw [h1, List.drop_left]
    exact startsWithCI_of_map v₁ e1
  have hocc2 : startsWithCI pat (s.drop u₂.length) = true := by
    rw [h2, List.drop_left]
    exact startsWithCI_of_map v₂ e2
  have hlen : u₁.length = u₂.length := by
    by_contra hne
    rcases Nat.lt_or_ge u₁.length u₂.length with hlt | hge
    · have := countOccCI_two hp s u₁.length u₂.length hlt hocc1 hocc2
      omega
    · have hlt : u₂.length < u₁.length := by omega
      have := countOccCI_two hp s u₂.length u₁.length hlt hocc2 hocc1
      omega
  have heq : u₁ ++ (p₁ ++ v₁) = u₂ ++ (p₂ ++ v₂) := by rw [← h1, ← h2]
  obtain ⟨hu, hrest⟩ := List.append_inj heq hlen
  obtain ⟨hpp, hvv⟩ := List.append_inj hrest (by rw [hl1, hl2])
  exact ⟨hu, hpp, hvv⟩

theorem subScan_no_match {s : List Char} (hc : countOccCI srcPat s ≤ 1) :
    ∀ i, matchImgAt ((subScan s).drop i) = none := by
  rcases subScan_struct s with ⟨hid, hnone⟩ | ⟨B, m, hmm, hseq, hsub⟩
  · rw [hid]; exact hnone
  · obtain ⟨img, ws, mid, sr, q1, stem, ext, q2, run, hg1, _himap, _hwsne, _hws, _hmid,
      hsrmap, _hq1, hg2, _hstemne, hstem, hg3, hextmap, hg4, hq2, _hrun, _hPP⟩ :=
      matchImgAt_shape hmm
    have hsrmap' : sr.map Char.toLower = srcPat.map Char.toLower := by
      rw [hsrmap]; decide
    have hsplit1 : s = (B ++ '<' :: (img ++ ws ++ mid)) ++
        (sr ++ (q1 :: (m.g2 ++ (m.g3 ++ (m.g4 ++ m.rest))))) := by
      rw [hseq, hg1]; simp
    have hocc := countOccCI_occ_plus srcPat (by decide) _ _ _ _ hsplit1 hsrmap'
    have hrest0 : countOccCI srcPat m.rest = 0 := by
      have hxv : (q1 :: (m.g2 ++ (m.g3 ++ m.g4))) ++ m.rest
          = q1 :: (m.g2 ++ (m.g3 ++ (m.g4 ++ m.rest))) := by simp
      have hge := countOccCI_append_ge srcPat (q1 :: (m.g2 ++ (m.g3 ++ m.g4))) m.rest
      rw [hxv] at hge
      omega
    have hscanrest : subScan m.rest = m.rest := subScan_id (no_src_no_match hrest0)
    have houteq : subScan s = B ++ (m.g1 ++ (m.g2 ++ (webpL ++ (m.g4 ++ m.rest)))) := by
      rw [hsub, hscanrest, replace_ext]
      simp
    have hextne : ext ≠ [] := by
      rcases hextmap with h' | h' <;> (intro hnil; rw [hnil] at h'; simp at h')
    have hcout : countOccCI srcPat (subScan s) ≤ 1 := by
      have e1 := countOccCI_splice srcPat (u := ext) (y := m.g4 ++ m.rest)
        (by decide) hextne (ext_not_src_chars hextmap) (B ++ (m.g1 ++ m.g2))
      have e2 := countOccCI_splice srcPat (u := webpL) (y := m.g4 ++ m.rest)
        (by decide) (by decide) webp_not_src_chars (B ++ (m.g1 ++ m.g2))
      have hs_eq : s = (B ++ (m.g1 ++ m.g2)) ++ (ext ++ (m.g4 ++ m.rest)) := by
        rw [hseq, hg3]; simp
      have hout_eq : subScan s = (B ++ (m.g1 ++ m.g2)) ++ (webpL ++ (m.g4 ++ m.rest)) := by
        rw [houteq]; simp
      rw [hout_eq, e2]
      rw [hs_eq, e1] at hc
      exact hc
    have hdec1 : subScan s = (B ++ '<' :: (img ++ ws ++ mid)) ++
        (sr ++ (q1 :: (m.g2 ++ (webpL ++ (m.g4 ++ m.rest))))) := by
      rw [houteq, hg1]; simp
    intro i
    cases hm2 : matchImgAt ((subScan s).drop i) with
    | none => rfl
    | some m' =>
      exfalso
      obtain ⟨img', ws', mid', sr', q1', stem', ext', q2', run', hg1', _himap', _hwsne',
        _hws', _hmid', hsrmap2, _hq1', hg2', _hstemne', hstem', hg3', hextmap', hg4',
        hq2', _hrun', hPP'⟩ := matchImgAt_shape hm2
      have hsrmap2' : sr'.map Char.toLower = srcPat.map Char.toLower := by
        rw [hsrmap2]; decide
      have hdec2 : subScan s = ((subScan s).take i ++ '<' :: (img' ++ ws' ++ mid'))
          ++ (sr' ++ (q1' :: (m'.g2 ++ (m'.g3 ++ (m'.g4 ++ m'.rest))))) := by
        conv_lhs => rw [← List.take_append_drop i (subScan s)]
        rw [hPP', hg1']
        simp
      obtain ⟨_, _, hveq⟩ :=
        uniq_split srcPat (by decide) hdec1 hdec2 hsrmap' hsrmap2' hcout
      obtain ⟨_, htail⟩ := List.cons.inj hveq
      have hT : (stem ++ '.' :: webpL) ++ q2 :: (run ++ '>' :: m.rest)
          = (stem' ++ '.' :: ext') ++ q2' :: (run' ++ '>' :: m'.rest) := by
        rw [hg2, hg4, hg2', hg3', hg4'] at htail
        simpa using htail
      have hTfree₁ : ∀ c ∈ stem ++ '.' :: webpL, notQuoteC c = true := by
        intro c hcmem
        rcases List.mem_append.mp hcmem with h' | h'
        · exact hstem c h'
        · simp only [webpL, List.mem_cons, List.not_mem_nil, or_false] at h'
          rcases h' with rfl | rfl | rfl | rfl | rfl <;> decide
      have hTfree₂ : ∀ c ∈ stem' ++ '.' :: ext', notQuoteC c = true := by
        intro c hcmem
        rcases List.mem_append.mp hcmem with h' | h'
        · exact hstem' c h'
        · rcases List.mem_cons.mp h' with rfl | h''
          · decide
          · refine letter_not_quote ?_
            cases hextmap' with
            | inl hmap => exact Or.inl (hmap ▸ List.mem_map_of_mem Char.toLower h'')
            | inr hmap => exact Or.inr (hmap ▸ List.mem_map_of_mem Char.toLower h'')
      obtain ⟨hTT, _, _⟩ := quote_split _ hTfree₁ hTfree₂ hq2 hq2' hT
      have hlen3 : ext'.length = 3 := by
        rcases hextmap' with h' | h' <;> simpa using congrArg List.length h'
      obtain ⟨e1, e2, e3, rfl⟩ := List.length_eq_three.mp hlen3
      have hrev := congrArg List.reverse hTT
      simp [webpL] at hrev

/-- Idempotence of the substitution for inputs with at most one
case-insensitive occurrence of the literal `src=`. -/
theorem subScan_idem {s : List Char} (hc : countOccCI srcPat s ≤ 1) :
    subScan (subScan s) = subScan s :=
  subScan_id (subScan_no_match hc)

/-! ### The match count of a pass, and idempotence when every occurrence
of `src=` is consumed as a match's attribute -/

theorem matchCountF_fuel :
    ∀ n n' (s : List Char), s.length ≤ n → s.length ≤ n' →
      matchCountF n s = matchCountF n' s := by
  intro n
  induction n with
  | zero =>
    intro n' s hn _
    have hs : s = [] := List.eq_nil_of_length_eq_zero (Nat.le_zero.mp hn)
    subst hs
    cases n' <;> rfl
  | succ n ih =>
    intro n' s hn hn'
    cases s with
    | nil => cases n' <;> rfl
    | cons c t =>
      cases n' with
      | zero => exact absurd hn' (by simp)
      | succ n' =>
        rw [matchCountF, matchCountF]
        cases hm : matchImgAt (c :: t) with
        | some m =>
          have hlt := matchImgAt_rest_lt hm
          have h1 : m.rest.length ≤ n := by simp at hlt hn; omega
          have h2 : m.rest.length ≤ n' := by simp at hlt hn'; omega
          show 1 + matchCountF n m.rest = 1 + matchCountF n' m.rest
          rw [ih n' m.rest h1 h2]
        | none =>
          have h1 : t.length ≤ n := by simp at hn; omega
          have h2 : t.length ≤ n' := by simp at hn'; omega
          show matchCountF n t = matchCountF n' t
          rw [ih n' t h1 h2]

theorem matchCount_none {c : Char} {t : List Char} (h : matchImgAt (c :: t) = none) :
    matchCount (c :: t) = matchCount t := by
  show matchCountF (c :: t).length (c :: t) = _
  rw [List.length_cons, matchCountF, h]
  rfl

theorem matchCount_some {s : List Char} {m : ImgMatch} (h : matchImgAt s = some m) :
    matchCount s = 1 + matchCount m.rest := by
  cases s with
  | nil => exact absurd h (by simp [matchImgAt])
  | cons c t =>
    show matchCountF (c :: t).length (c :: t) = _
    rw [List.length_cons, matchCountF, h]
    have hlt := matchImgAt_rest_lt h
    show 1 + matchCountF t.length m.rest = _
    rw [matchCountF_fuel t.length m.rest.length m.rest (by simp at hlt; omega) (le_refl _)]
    rfl

/-- Every match carries an occurrence of `src=` before its opening quote,
so the count of occurrences strictly dominates the remainder's count. -/
theorem match_count_succ {s : List Char} {m : ImgMatch} (h : matchImgAt s = some m) :
    1 + countOccCI srcPat m.rest ≤ countOccCI srcPat s := by
  obtain ⟨img, ws, mid, sr, q1, stem, ext, q2, run, hg1, _, _, _, _, hsrmap, _, _, _, _,
    _, _, _, _, _, hs⟩ := matchImgAt_shape h
  have hsr' : sr.map Char.toLower = srcPat.map Char.toLower := by
    rw [hsrmap]; decide
  have hsplit : s = ('<' :: (img ++ ws ++ mid)) ++
      (sr ++ (q1 :: (m.g2 ++ (m.g3 ++ (m.g4 ++ m.rest))))) := by
    rw [hs, hg1]; simp
  have hocc := countOccCI_occ_plus srcPat (by decide) _ _ _ _ hsplit hsr'
  have hxv : (q1 :: (m.g2 ++ (m.g3 ++ m.g4))) ++ m.rest
      = q1 :: (m.g2 ++ (m.g3 ++ (m.g4 ++ m.rest))) := by simp
  have hge := countOccCI_append_ge srcPat (q1 :: (m.g2 ++ (m.g3 ++ m.g4))) m.rest
  rw [hxv] at hge
  omega

theorem matchCount_le_count : ∀ n (s : List Char), s.length ≤ n →
    matchCount s ≤ countOccCI srcPat s := by
  intro n
  induction n with
  | zero =>
    intro s hs
    have h0 : s = [] := List.eq_nil_of_length_eq_zero (Nat.le_zero.mp hs)
    subst h0
    exact Nat.le_refl 0
  | succ n ih =>
    intro s hs
    cases s with
    | nil => exact Nat.le_refl 0
    | cons c t =>
      cases hm : matchImgAt (c :: t) with
      | some m =>
        rw [matchCount_some hm]
        have h1 := match_count_succ hm
        have hlt := matchImgAt_rest_lt hm
        have h2 := ih m.rest (by simp at hlt hs; omega)
        omega
      | none =>
        rw [matchCount_none hm]
        have h2 := ih t (by simp at hs; omega)
        have h3 := countOccCI_cons_ge srcPat c t
        omega

theorem matchCount_le_count' (s : List Char) : matchCount s ≤ countOccCI srcPat s :=
  matchCount_le_count s.length s (le_refl _)

/-- A pass that finds no match is the identity. -/
theorem matchCount_zero_id : ∀ n (s : List Char), s.length ≤ n → matchCount s = 0 →
    subScan s = s := by
  intro n
  induction n with
  | zero =>
    intro s hs _
    have h0 : s = [] := List.eq_nil_of_length_eq_zero (Nat.le_zero.mp hs)
    subst h0
    rfl
  | succ n ih =>
    intro s hs h0
    cases s with
    | nil => rfl
    | cons c t =>
      cases hm : matchImgAt (c :: t) with
      | some m =>
        rw [matchCount_some hm] at h0
        exact absurd h0 (by omega)
      | none =>
        rw [matchCount_none hm] at h0
        rw [subScan_none hm, ih t (by simp at hs; omega) h0]

theorem count_one_plus (pat : List Char) (_hp : pat ≠ []) :
    ∀ (W S : List Char) (j : Nat), j < W.length →
      startsWithCI pat ((W ++ S).drop j) = true →
      1 + countOccCI pat S ≤ countOccCI pat (W ++ S) := by
  intro W
  induction W with
  | nil => intro S j h; simp at h
  | cons c W' ih =>
    intro S j hj hocc
    cases j with
    | zero =>
      rw [List.drop_zero] at hocc
      rw [List.cons_append] at hocc ⊢
      rw [countOccCI, if_pos hocc]
      have := countOccCI_append_ge pat W' S
      omega
    | succ j =>
      have hocc' : startsWithCI pat ((W' ++ S).drop j) = true := by
        rw [List.cons_append, List.drop_succ_cons] at hocc
        exact hocc
      have h1 := ih S j (by simp at hj; omega) hocc'
      have h2 := countOccCI_cons_ge pat c (W' ++ S)
      rw [List.cons_append]
      omega

theorem count_two_plus (pat : List Char) (hp : pat ≠ []) :
    ∀ (W S : List Char) (j₁ j₂ : Nat), j₁ < j₂ → j₂ < W.length →
      startsWithCI pat ((W ++ S).drop j₁) = true →
      startsWithCI pat ((W ++ S).drop j₂) = true →
      2 + countOccCI pat S ≤ countOccCI pat (W ++ S) := by
  intro W
  induction W with
  | nil => intro S j₁ j₂ _ h2; simp at h2
  | cons c W' ih =>
    intro S j₁ j₂ hlt hj₂ hocc1 hocc2
    cases j₁ with
    | zero =>
      rw [List.drop_zero] at hocc1
      rw [List.cons_append] at hocc1 hocc2 ⊢
      rw [countOccCI, if_pos hocc1]
      obtain ⟨k, rfl⟩ : ∃ k, j₂ = k + 1 := ⟨j₂ - 1, by omega⟩
      rw [List.drop_succ_cons] at hocc2
      have := count_one_plus pat hp W' S k (by simp at hj₂; omega) hocc2
      omega
    | succ k =>
      obtain ⟨k', rfl⟩ : ∃ k', j₂ = k' + 1 := ⟨j₂ - 1, by omega⟩
      rw [List.cons_append, List.drop_succ_cons] at hocc1 hocc2
      have h1 := ih S k k' (by omega) (by simp at hj₂; omega) hocc1 hocc2
      have h2 := countOccCI_cons_ge pat c (W' ++ S)
      rw [List.cons_append]
      omega

theorem append_extract {x y w z : List Char} (h : x ++ y = w ++ z)
    (hl : w.length ≤ x.length) : ∃ e, x = w ++ e ∧ z = e ++ y := by
  refine ⟨x.drop w.length, ?_, ?_⟩
  · have ht : x.take w.length = w := by
      have h' := congrArg (List.take w.length) h
      rw [List.take_append_eq_append_take, List.take_append_eq_append_take,
        Nat.sub_eq_zero_of_le hl, Nat.sub_self, List.take_zero, List.take_zero,
        List.append_nil, List.append_nil, List.take_length] at h'
      exact h'
    conv_lhs => rw [← List.take_append_drop w.length x]
    rw [ht]
  · have h' := congrArg (List.drop w.length) h
    rw [List.drop_append_eq_append_drop, List.drop_append_eq_append_drop,
      Nat.sub_eq_zero_of_le hl, Nat.sub_self, List.drop_zero, List.drop_length,
      List.nil_append] at h'
    exact h'.symm

theorem gt_not_src_chars : ∀ c ∈ (['>'] : List Char), ∀ a ∈ srcPat,
    a.toLower ≠ c.toLower := by decide

theorem glue_count_preserve : ∀ (segs : List (List Char × ImgMatch)) (G : List Char),
    GlueFacts segs G →
    countOccCI srcPat (glueOut segs G) = countOccCI srcPat (glueIn segs G) := by
  intro segs
  induction segs with
  | nil => intro G _; rfl
  | cons seg ss ih =>
    obtain ⟨A, m⟩ := seg
    intro G hf
    obtain ⟨hsh, _hcnt, htail⟩ := hf
    obtain ⟨img, ws, mid, sr, q1, stem, ext, q2, run, hg1, _, _, _, _, _, _, _, _, _,
      hg3, hextmap, hg4, _, _, _⟩ := hsh
    have hextne : ext ≠ [] := by
      rcases hextmap with h' | h' <;> (intro hnil; rw [hnil] at h'; simp at h')
    have hin : glueIn ((A, m) :: ss) G =
        (A ++ (m.g1 ++ m.g2)) ++ (ext ++ ((q2 :: run) ++ (['>'] ++ glueIn ss G))) := by
      show A ++ (m.g1 ++ (m.g2 ++ (m.g3 ++ (m.g4 ++ glueIn ss G)))) = _
      rw [hg3, hg4]
      simp
    have hout : glueOut ((A, m) :: ss) G =
        (A ++ (m.g1 ++ m.g2)) ++ (webpL ++ ((q2 :: run) ++ (['>'] ++ glueOut ss G))) := by
      show A ++ (m.g1 ++ (m.g2 ++ (webpL ++ (m.g4 ++ glueOut ss G)))) = _
      rw [hg4]
      simp
    rw [hin, hout,
      countOccCI_splice srcPat (by decide) (by decide) webp_not_src_chars,
      countOccCI_splice srcPat (by decide) hextne (ext_not_src_chars hextmap),
      countOccCI_splice srcPat (by decide) (by decide) gt_not_src_chars,
      countOccCI_splice srcPat (by decide) (by decide) gt_not_src_chars,
      ih G htail]

/-- The structure theorem: when every `src=` occurrence of the input is
consumed as the attribute of a match, the scan decomposes the input into
gap/match segments satisfying `GlueFacts`. -/
theorem struct2 : ∀ n (s : List Char), s.length ≤ n →
    countOccCI srcPat s = matchCount s →
    ∃ segs G, s = glueIn segs G ∧ subScan s = glueOut segs G ∧ GlueFacts segs G := by
  intro n
  induction n with
  | zero =>
    intro s hs _
    have h0 : s = [] := List.eq_nil_of_length_eq_zero (Nat.le_zero.mp hs)
    subst h0
    exact ⟨[], [], rfl, rfl, rfl⟩
  | succ n ih =>
    intro s hs hc
    cases s with
    | nil => exact ⟨[], [], rfl, rfl, rfl⟩
    | cons c t =>
      cases hm : matchImgAt (c :: t) with
      | some m =>
        have hdec := matchImgAt_decomp hm
        have hcnt := match_count_succ hm
        have hmc := matchCount_some hm
        have hle := matchCount_le_count' m.rest
        have hrest : countOccCI srcPat m.rest = matchCount m.rest := by omega
        have hlt := matchImgAt_rest_lt hm
        obtain ⟨segs', G', hseq, hsub, hfacts⟩ :=
          ih m.rest (by simp at hlt hs; omega) hrest
        have hglue1 : c :: t = glueIn (([], m) :: segs') G' := by
          show c :: t = [] ++ (m.g1 ++ (m.g2 ++ (m.g3 ++ (m.g4 ++ glueIn segs' G'))))
          rw [hdec, hseq]
          simp
        refine ⟨([], m) :: segs', G', hglue1, ?_, ?_, ?_, hfacts⟩
        · show subScan (c :: t) =
            [] ++ (m.g1 ++ (m.g2 ++ (webpL ++ (m.g4 ++ glueOut segs' G'))))
          rw [subScan_some hm, hsub]
          simp [replace_ext]
        · exact hdec ▸ matchImgAt_shape hm
        · show countOccCI srcPat (glueIn (([], m) :: segs') G') =
            1 + countOccCI srcPat (glueIn segs' G')
          rw [← hglue1]
          have h1 : countOccCI srcPat (c :: t) = 1 + countOccCI srcPat m.rest := by omega
          rw [h1, hseq]
      | none =>
        have hmc := matchCount_none hm
        have hle := matchCount_le_count' t
        have hcons := countOccCI_cons_ge srcPat c t
        have hrest : countOccCI srcPat t = matchCount t := by omega
        have hct : countOccCI srcPat (c :: t) = countOccCI srcPat t := by omega
        obtain ⟨segs', G', hseq, hsub, hfacts⟩ := ih t (by simp at hs; omega) hrest
        cases segs' with
        | nil =>
          have hseq' : t = G' := hseq
          have hfacts' : countOccCI srcPat G' = 0 := hfacts
          refine ⟨[], c :: G', ?_, ?_, ?_⟩
          · show c :: t = c :: G'
            rw [hseq']
          · show subScan (c :: t) = c :: G'
            have hct0 : countOccCI srcPat t = 0 := by rw [hseq']; exact hfacts'
            rw [subScan_none hm, subScan_id (no_src_no_match hct0), hseq']
          · show countOccCI srcPat (c :: G') = 0
            rw [← hseq']
            rw [← hseq'] at hfacts'
            omega
        | cons seg segs'' =>
          obtain ⟨A, m⟩ := seg
          obtain ⟨hsh, hcnt2, htail⟩ := hfacts
          have hstep : glueIn ((c :: A, m) :: segs'') G' =
              c :: glueIn ((A, m) :: segs'') G' := rfl
          have hstepo : glueOut ((c :: A, m) :: segs'') G' =
              c :: glueOut ((A, m) :: segs'') G' := rfl
          refine ⟨(c :: A, m) :: segs'', G', ?_, ?_, hsh, ?_, htail⟩
          · rw [hstep, ← hseq]
          · rw [hstepo, ← hsub, subScan_none hm]
          · rw [hstep, ← hseq, hct, hseq, hcnt2]

/-- No suffix of the glued output contains the shape of a match: the
occurrence of `src=` that such a match would use must be the single
occurrence of one of the segments, and there the text continues with the
rewritten `.webp` extension, which cannot be re-matched. -/
theorem glue_no_occ : ∀ (segs : List (List Char × ImgMatch)) (G : List Char),
    GlueFacts segs G →
    ∀ (U1 sr' : List Char) (q1' : Char) (stem' ext' : List Char) (q2' : Char)
      (run' rest' : List Char),
      sr'.map Char.toLower = srcPat.map Char.toLower →
      (∀ x ∈ stem', notQuoteC x = true) →
      (ext'.map Char.toLower = ['j', 'p', 'g'] ∨
        ext'.map Char.toLower = ['p', 'n', 'g']) →
      isQuoteC q2' = true →
      glueOut segs G = U1 ++ (sr' ++ (q1' :: (stem' ++ ('.' :: (ext' ++
        (q2' :: (run' ++ ('>' :: rest')))))))) →
      False := by
  intro segs
  induction segs with
  | nil =>
    intro G hf U1 sr' q1' stem' ext' q2' run' rest' hsr _ _ _ heq
    have hf' : countOccCI srcPat G = 0 := hf
    have heq' : G = U1 ++ (sr' ++ (q1' :: (stem' ++ ('.' :: (ext' ++
        (q2' :: (run' ++ ('>' :: rest')))))))) := heq
    have hocc := countOccCI_occ_plus srcPat (by decide) _ _ _ _ heq' hsr
    omega
  | cons seg ss ih =>
    obtain ⟨A, m⟩ := seg
    intro G hf U1 sr' q1' stem' ext' q2' run' rest' hsr hstem' hext' hq2' heq
    obtain ⟨hsh, hcnt, htail⟩ := hf
    have hf' : GlueFacts ((A, m) :: ss) G := ⟨hsh, hcnt, htail⟩
    obtain ⟨img, ws, mid, sr, q1, stem, ext, q2, run, hg1, _himap, _hwsne, _hws, _hmid,
      hsrmap, _hq1, hg2x, _hstemne, hstem, hg3, hextmap, hg4, hq2, _hrun, _hPP⟩ := hsh
    have hsr2 : sr.map Char.toLower = srcPat.map Char.toLower := by
      rw [hsrmap]; decide
    have hout1 : glueOut ((A, m) :: ss) G =
        (A ++ '<' :: (img ++ ws ++ mid)) ++ (sr ++ (q1 :: (stem ++ ('.' ::
          ('w' :: 'e' :: 'b' :: 'p' :: (q2 :: (run ++ ('>' :: glueOut ss G)))))))) := by
      show A ++ (m.g1 ++ (m.g2 ++ (webpL ++ (m.g4 ++ glueOut ss G)))) = _
      rw [hg1, hg2x, hg4]
      simp [webpL]
    have hW : glueOut ((A, m) :: ss) G =
        (A ++ (m.g1 ++ (m.g2 ++ (webpL ++ m.g4)))) ++ glueOut ss G := by
      show A ++ (m.g1 ++ (m.g2 ++ (webpL ++ (m.g4 ++ glueOut ss G)))) = _
      simp
    have hcOut : countOccCI srcPat (glueOut ((A, m) :: ss) G) =
        1 + countOccCI srcPat (glueOut ss G) := by
      rw [glue_count_preserve _ _ hf', hcnt, glue_count_preserve _ _ htail]
    have hsrlen : sr.length = 4 := by simpa using congrArg List.length hsrmap
    have hsrlen' : sr'.length = 4 := by
      have := congrArg List.length hsr
      simpa using this
    by_cases hge : (A ++ (m.g1 ++ (m.g2 ++ (webpL ++ m.g4)))).length ≤ U1.length
    · -- the occurrence lies in the glued tail: recurse into the remaining segments
      have hx : U1 ++ (sr' ++ (q1' :: (stem' ++ ('.' :: (ext' ++
          (q2' :: (run' ++ ('>' :: rest')))))))) =
          (A ++ (m.g1 ++ (m.g2 ++ (webpL ++ m.g4)))) ++ glueOut ss G := by
        rw [← heq, ← hW]
      obtain ⟨e, hU1e, hSe⟩ := append_extract hx hge
      exact ih G htail e sr' q1' stem' ext' q2' run' rest' hsr hstem' hext' hq2' hSe
    · push_neg at hge
      by_cases heqU : U1.length = (A ++ '<' :: (img ++ ws ++ mid)).length
      · -- the occurrence is this segment's own src=; the rewritten .webp follows
        have hout_eq : (A ++ '<' :: (img ++ ws ++ mid)) ++ (sr ++ (q1 :: (stem ++ ('.' ::
            ('w' :: 'e' :: 'b' :: 'p' :: (q2 :: (run ++ ('>' :: glueOut ss G)))))))) =
            U1 ++ (sr' ++ (q1' :: (stem' ++ ('.' :: (ext' ++
              (q2' :: (run' ++ ('>' :: rest')))))))) := by
          rw [← hout1, heq]
        obtain ⟨_, hrest2⟩ := List.append_inj hout_eq heqU.symm
        obtain ⟨_, hVe⟩ := List.append_inj hrest2 (by rw [hsrlen, hsrlen'])
        obtain ⟨_, htl⟩ := List.cons.inj hVe
        have hT : (stem ++ '.' :: webpL) ++ q2 :: (run ++ '>' :: glueOut ss G)
            = (stem' ++ '.' :: ext') ++ q2' :: (run' ++ '>' :: rest') := by
          simpa [webpL] using htl
        have hTfree₁ : ∀ x ∈ stem ++ '.' :: webpL, notQuoteC x = true := by
          intro x hxmem
          rcases List.mem_append.mp hxmem with h' | h'
          · exact hstem x h'
          · simp only [webpL, List.mem_cons, List.not_mem_nil, or_false] at h'
            rcases h' with rfl | rfl | rfl | rfl | rfl <;> decide
        have hTfree₂ : ∀ x ∈ stem' ++ '.' :: ext', notQuoteC x = true := by
          intro x hxmem
          rcases List.mem_append.mp hxmem with h' | h'
          · exact hstem' x h'
          · rcases List.mem_cons.mp h' with rfl | h''
            · decide
            · refine letter_not_quote ?_
              cases hext' with
              | inl hmap => exact Or.inl (hmap ▸ List.mem_map_of_mem Char.toLower h'')
              | inr hmap => exact Or.inr (hmap ▸ List.mem_map_of_mem Char.toLower h'')
        obtain ⟨hTT, _, _⟩ := quote_split _ hTfree₁ hTfree₂ hq2 hq2' hT
        have hlen3 : ext'.length = 3 := by
          rcases hext' with h' | h' <;> simpa using congrArg List.length h'
        obtain ⟨e1, e2, e3, rfl⟩ := List.length_eq_three.mp hlen3
        have hrev := congrArg List.reverse hTT
        simp [webpL] at hrev
      · -- a different occurrence inside this segment: two occurrences, count says one
        have hocc1 : startsWithCI srcPat
            ((glueOut ((A, m) :: ss) G).drop (A ++ '<' :: (img ++ ws ++ mid)).length)
              = true := by
          rw [hout1, List.drop_left]
          exact startsWithCI_of_map _ hsr2
        have hocc2 : startsWithCI srcPat
            ((glueOut ((A, m) :: ss) G).drop U1.length) = true := by
          rw [heq, List.drop_left]
          exact startsWithCI_of_map _ hsr
        rw [hW] at hocc1 hocc2
        have hlenU1 : (A ++ '<' :: (img ++ ws ++ mid)).length <
            (A ++ (m.g1 ++ (m.g2 ++ (webpL ++ m.g4)))).length := by
          have e1 := congrArg List.length hg1
          have e2 := congrArg List.length hg2x
          have e4 := congrArg List.length hg4
          simp [webpL] at e1 e2 e4 ⊢
          omega
        have h2p : 2 + countOccCI srcPat (glueOut ss G) ≤
            countOccCI srcPat ((A ++ (m.g1 ++ (m.g2 ++ (webpL ++ m.g4)))) ++
              glueOut ss G) := by
          rcases Nat.lt_or_ge U1.length (A ++ '<' :: (img ++ ws ++ mid)).length with
            hlt | hge2
          · exact count_two_plus srcPat (by decide) _ _ _ _ hlt hlenU1 hocc2 hocc1
          · have hlt2 : (A ++ '<' :: (img ++ ws ++ mid)).length < U1.length := by
              omega
            exact count_two_plus srcPat (by decide) _ _ _ _ hlt2 hge hocc1 hocc2
        rw [← hW, hcOut] at h2p
        omega

theorem subScan_no_match2 {s : List Char}
    (hc : countOccCI srcPat s = matchCount s) :
    ∀ i, matchImgAt ((subScan s).drop i) = none := by
  obtain ⟨segs, G, _hseq, hsub, hfacts⟩ := struct2 s.length s (le_refl _) hc
  intro i
  cases hm2 : matchImgAt ((subScan s).drop i) with
  | none => rfl
  | some m' =>
    exfalso
    obtain ⟨img', ws', mid', sr', q1', stem', ext', q2', run', hg1', _himap', _hwsne',
      _hws', _hmid', hsrmap2, _hq1', hg2', _hstemne', hstem', hg3', hextmap', hg4',
      hq2', _hrun', hPP'⟩ := matchImgAt_shape hm2
    have hsrmap2' : sr'.map Char.toLower = srcPat.map Char.toLower := by
      rw [hsrmap2]; decide
    have hdec2 : glueOut segs G = ((subScan s).take i ++ '<' :: (img' ++ ws' ++ mid'))
        ++ (sr' ++ (q1' :: (stem' ++ ('.' :: (ext' ++ (q2' :: (run' ++
          ('>' :: m'.rest)))))))) := by
      rw [← hsub]
      conv_lhs => rw [← List.take_append_drop i (subScan s)]
      rw [hPP', hg1', hg2', hg3', hg4']
      simp
    exact glue_no_occ segs G hfacts _ sr' q1' stem' ext' q2' run' m'.rest hsrmap2'
      hstem' hextmap' hq2' hdec2

/-- Idempotence of the substitution when every `src=` occurrence is the
attribute of a matched tag, or when nothing matches at all. -/
theorem subScan_idem2 {s : List Char}
    (hc : countOccCI srcPat s = matchCount s ∨ matchCount s = 0) :
    subScan (subScan s) = subScan s := by
  rcases hc with hc | hc
  · exact subScan_id (subScan_no_match2 hc)
  · have h0 := matchCount_zero_id s.length s (le_refl _) hc
    simp only [h0]

theorem hasImgMatch_eq_false {s : List Char} (h : hasImgMatch s = false) :
    ∀ i, matchImgAt (s.drop i) = none := by
  induction s with
  | nil =>
    intro i
    rw [List.drop_nil]
    rfl
  | cons c t ih =>
    have h' : ((matchImgAt (c :: t)).isSome || hasImgMatch t) = false := h
    rw [Bool.or_eq_false_iff] at h'
    intro i
    cases i with
    | zero =>
      rw [List.drop_zero]
      cases hm : matchImgAt (c :: t) with
      | none => rfl
      | some m => rw [hm] at h'; exact absurd h'.1 (by simp)
    | succ i =>
      rw [List.drop_succ_cons]
      exact ih h'.2 i

/-! ### The directory walk

`update_html_files` walks the tree with `os.walk`, skips every directory
whose rendered path contains the substring `node_modules`, opens files
whose name ends (case-sensitively) in `.html`, applies the substitution,
and rewrites the file (printing one notice) exactly when the content
changed.  The walk is modelled by a list of files in walk order; each
file records its directory as the list of path segments that `os.walk`
joins with `/` (the first segment being the walk root, `.` for the
standalone invocation). -/

theorem startsWithL_append (p z : List Char) : startsWithL p (p ++ z) = true := by
  induction p with
  | nil => rfl
  | cons a p ih =>
    rw [List.cons_append, startsWithL, ih]
    simp

theorem hasSubstrL_of_infix {pat s : List Char} (hp : pat ≠ []) (h : pat <:+: s) :
    hasSubstrL pat s = true := by
  obtain ⟨u, v, huv⟩ := h
  induction u generalizing s with
  | nil =>
    rw [List.nil_append] at huv
    subst huv
    cases pat with
    | nil => exact absurd rfl hp
    | cons a pat' =>
      rw [List.cons_append]
      show (startsWithL (a :: pat') (a :: (pat' ++ v)) ||
        hasSubstrL (a :: pat') (pat' ++ v)) = true
      have hsw := startsWithL_append (a :: pat') v
      rw [List.cons_append] at hsw
      rw [hsw]
      simp
  | cons c u' ih =>
    subst huv
    rw [List.cons_append]
    show (startsWithL pat (c :: (u' ++ pat ++ v)) ||
      hasSubstrL pat (u' ++ pat ++ v)) = true
    rw [ih rfl]
    simp

theorem joinSlash_infix {x : List Char} : ∀ (l : List (List Char)), x ∈ l →
    x <:+: joinSlash l := by
  intro l
  induction l with
  | nil => intro h; exact absurd h (List.not_mem_nil x)
  | cons y t ih =>
    intro h
    rcases List.mem_cons.mp h with rfl | hmem
    · cases t with
      | nil => exact List.infix_refl x
      | cons z t' =>
        rw [joinSlash]
        exact ⟨[], '/' :: joinSlash (z :: t'), by simp⟩
    · have hx := ih hmem
      cases t with
      | nil => exact absurd hmem (List.not_mem_nil x)
      | cons z t' =>
        rw [joinSlash]
        exact hx.trans ⟨y ++ ['/'], [], by simp⟩

theorem inNodeModules_of_mem {f : FSFile} (h : "node_modules" ∈ f.dir) :
    inNodeModules f = true := by
  have hinf : "node_modules".data <:+: joinSlash (f.dir.map String.data) :=
    joinSlash_infix _ (List.mem_map_of_mem String.data h)
  exact hasSubstrL_of_infix (by decide) hinf

/-! ### The claims -/

/-- Claim C1: every occurrence matching the tag-rewrite pattern splits the
text into the four capture groups followed by the remainder, and the
substitution replaces exactly the extension letters (group 3) by the
literal `webp`, copying groups 1, 2 and 4 verbatim (so the dot, the path,
the quote characters, the other attributes and the original casing are
preserved); the scan then continues on the remainder, so every
non-overlapping match is rewritten, not only the first. -/
theorem claim_C1_substitution (s : List Char) (m : ImgMatch)
    (h : matchImgAt s = some m) :
    s = m.g1 ++ m.g2 ++ m.g3 ++ m.g4 ++ m.rest ∧
    subScan s = m.g1 ++ (m.g2 ++ (webpL ++ (m.g4 ++ subScan m.rest))) ∧
    m.g2.getLast? = some '.' ∧
    (m.g3.map Char.toLower = ['j', 'p', 'g'] ∨ m.g3.map Char.toLower = ['p', 'n', 'g']) := by
  obtain ⟨img, ws, mid, sr, q1, stem, ext, q2, run, hg1, _, _, _, _, _, _, hg2, _, _,
    hg3, hextmap, _, _, _, _⟩ := matchImgAt_shape h
  refine ⟨matchImgAt_decomp h, ?_, ?_, by rw [hg3]; exact hextmap⟩
  · rw [subScan_some h, replace_ext]
    simp
  · rw [hg2]
    simp

/-- Witness for C1 at the spec's attribute-preservation example, plus the
multi-match example showing both tags of one text rewritten in one pass. -/
theorem claim_C1_substitution_witness :
    matchImgAt exampleTag = some exampleMatch ∧
    (exampleTag = exampleMatch.g1 ++ exampleMatch.g2 ++ exampleMatch.g3 ++
        exampleMatch.g4 ++ exampleMatch.rest ∧
      subScan exampleTag = exampleMatch.g1 ++ (exampleMatch.g2 ++ (webpL ++
        (exampleMatch.g4 ++ subScan exampleMatch.rest))) ∧
      exampleMatch.g2.getLast? = some '.' ∧
      (exampleMatch.g3.map Char.toLower = ['j', 'p', 'g'] ∨
        exampleMatch.g3.map Char.toLower = ['p', 'n', 'g'])) ∧
    subScan "<img src=\"a.jpg\"><img src=\"b.png\">".data =
      "<img src=\"a.webp\"><img src=\"b.webp\">".data :=
  ⟨by decide, claim_C1_substitution exampleTag exampleMatch (by decide), by decide⟩

/-- Claim C2 is false as stated: the transformation is not idempotent.
On `<img src="a.jpg" src="b.png">` the greedy middle part of the pattern
selects the last `src=` of the tag, so the first pass rewrites only
`b.png`; the second pass then matches the first `src=` (the tail now
reaches the closing `>`) and rewrites `a.jpg` as well. -/
theorem claim_C2_counterexample :
    imgTagSub (imgTagSub "<img src=\"a.jpg\" src=\"b.png\">") ≠
      imgTagSub "<img src=\"a.jpg\" src=\"b.png\">" := by decide

/-- Claim C2 (amended): for every ASCII input in which each
case-insensitive occurrence of the substring `src=` is the attribute of a
matched tag (the occurrence count equals the number of matches of a pass),
and for every ASCII input on which a pass finds no match at all, applying
the substitution twice yields the same string as applying it once — in
every matched tag the rewritten extension is `webp`, which is not in the
matched set {jpg, png}.  This covers in particular all inputs whose tags
each carry a single `src=` attribute, such as ordinary multi-tag files. -/
theorem claim_C2_idempotent (s : String) (_hascii : ∀ c ∈ s.data, c.toNat < 128)
    (h : countOccCI srcPat s.data = matchCount s.data ∨ matchCount s.data = 0) :
    imgTagSub (imgTagSub s) = imgTagSub s := by
  show String.mk (subScan (subScan s.data)) = String.mk (subScan s.data)
  rw [subScan_idem2 h]

theorem claim_C2_idempotent_witness :
    (∀ c ∈ "<img src=\"a.jpg\"><img src=\"b.png\">".data, c.toNat < 128) ∧
    countOccCI srcPat "<img src=\"a.jpg\"><img src=\"b.png\">".data =
      matchCount "<img src=\"a.jpg\"><img src=\"b.png\">".data ∧
    imgTagSub (imgTagSub "<img src=\"a.jpg\"><img src=\"b.png\">") =
      imgTagSub "<img src=\"a.jpg\"><img src=\"b.png\">" :=
  ⟨by decide, by decide,
    claim_C2_idempotent "<img src=\"a.jpg\"><img src=\"b.png\">" (by decide)
      (Or.inl (by decide))⟩

/-- Claim C3: a file inside a directory whose path has a segment equal to
`node_modules` is never opened, never rewritten, and yields no notice:
its processing result is the unchanged file with no opened path and no
notice, so it contributes nothing to the run's outputs. -/
theorem claim_C3_node_modules (f : FSFile) (h : "node_modules" ∈ f.dir) :
    processOne f = (f, none, none) := by
  unfold processOne
  rw [if_pos (inNodeModules_of_mem h)]

theorem claim_C3_node_modules_witness :
    "node_modules" ∈ exampleNodeModulesFile.dir ∧
    processOne exampleNodeModulesFile = (exampleNodeModulesFile, none, none) :=
  ⟨by decide, claim_C3_node_modules exampleNodeModulesFile (by decide)⟩

/-- Claim C4: only `<img>` tags are affected: an ASCII text in which the
tag-rewrite pattern matches at no position — in particular any text whose
`.png`/`.jpg` references occur only outside `<img>` tags, such as
`<link rel="icon" href="favicon.png">` alone or next to an `<img>` tag
with a non-matching source — is returned byte for byte. -/
theorem claim_C4_selectivity (s : String) (_hascii : ∀ c ∈ s.data, c.toNat < 128)
    (h : hasImgMatch s.data = false) : imgTagSub s = s := by
  show String.mk (subScan s.data) = s
  rw [subScan_id (hasImgMatch_eq_false h)]

theorem claim_C4_selectivity_witness :
    ((∀ c ∈ "<link rel=\"icon\" href=\"favicon.png\">".data, c.toNat < 128) ∧
      hasImgMatch "<link rel=\"icon\" href=\"favicon.png\">".data = false ∧
      imgTagSub "<link rel=\"icon\" href=\"favicon.png\">" =
        "<link rel=\"icon\" href=\"favicon.png\">") ∧
    ((∀ c ∈ "<img src=\"a.gif\"> <link href=\"b.png\">".data, c.toNat < 128) ∧
      hasImgMatch "<img src=\"a.gif\"> <link href=\"b.png\">".data = false ∧
      imgTagSub "<img src=\"a.gif\"> <link href=\"b.png\">" =
        "<img src=\"a.gif\"> <link href=\"b.png\">") :=
  ⟨⟨by decide, by decide, claim_C4_selectivity _ (by decide) (by decide)⟩,
    ⟨by decide, by decide, claim_C4_selectivity _ (by decide) (by decide)⟩⟩

/-- Claim C5: for every candidate file (outside skipped directories, name
ending in `.html`), the file is overwritten with the transformed content
and exactly one notice naming its path is emitted if and only if the
transformed content differs (string inequality) from the original; when
the content is unchanged the file is left alone and no notice appears. -/
theorem claim_C5_write_iff_changed (f : FSFile) (h1 : inNodeModules f = false)
    (h2 : isHtmlName f.name = true) :
    (imgTagSub f.content ≠ f.content →
      processOne f = (⟨f.dir, f.name, imgTagSub f.content⟩, some (filepathStr f),
        some ("Updating " ++ filepathStr f))) ∧
    (imgTagSub f.content = f.content →
      processOne f = (f, some (filepathStr f), none)) := by
  have hb : ¬inNodeModules f = true := by rw [h1]; exact Bool.false_ne_true
  constructor
  · intro hch
    unfold processOne
    rw [if_neg hb, if_pos h2, if_pos hch]
  · intro hch
    unfold processOne
    rw [if_neg hb, if_pos h2, if_neg (fun hne => hne hch)]

theorem claim_C5_write_iff_changed_witness :
    inNodeModules exampleHtmlFile = false ∧ isHtmlName exampleHtmlFile.name = true ∧
    imgTagSub exampleHtmlFile.content ≠ exampleHtmlFile.content ∧
    processOne exampleHtmlFile = (⟨exampleHtmlFile.dir, exampleHtmlFile.name,
      imgTagSub exampleHtmlFile.content⟩, some (filepathStr exampleHtmlFile),
      some ("Updating " ++ filepathStr exampleHtmlFile)) :=
  ⟨by decide, by decide, by decide,
    (claim_C5_write_iff_changed exampleHtmlFile (by decide) (by decide)).1 (by decide)⟩

/-- Claim C6: outside skipped directories a file is opened (considered a
candidate) exactly when its name ends in the lowercase suffix `.html`;
the suffix test compares characters exactly, so `.HTML`, `.Html` and
other casings are not processed. -/
theorem claim_C6_html_suffix (f : FSFile) (h : inNodeModules f = false) :
    (processOne f).2.1 = some (filepathStr f) ↔ isHtmlName f.name = true := by
  have hb : ¬inNodeModules f = true := by rw [h]; exact Bool.false_ne_true
  unfold processOne
  rw [if_neg hb]
  cases hh : isHtmlName f.name with
  | true =>
    rw [if_pos (rfl : true = true)]
    refine ⟨fun _ => rfl, fun _ => ?_⟩
    split <;> rfl
  | false =>
    rw [if_neg (fun hcon => Bool.false_ne_true hcon)]
    simp

theorem claim_C6_html_suffix_witness :
    inNodeModules exampleHtmlFile = false ∧
    (((processOne exampleHtmlFile).2.1 = some (filepathStr exampleHtmlFile)) ↔
      isHtmlName exampleHtmlFile.name = true) ∧
    isHtmlName "page.html" = true ∧ isHtmlName "page.HTML" = false ∧
    (processOne exampleUpperFile).2.1 = none :=
  ⟨by decide, claim_C6_html_suffix exampleHtmlFile (by decide), by decide, by decide,
    by decide⟩

theorem toNat_ofNat_small (m : Nat) (h : m < 55296) : (Char.ofNat m).toNat = m := by
  unfold Char.ofNat
  rw [dif_pos (Or.inl h)]
  rfl

theorem toLower_letter {c d : Char} (h : c.toLower = d) :
    c = d ∨ (65 ≤ c.toNat ∧ c.toNat ≤ 90 ∧ c.toNat + 32 = d.toNat) := by
  have h' : (if c.toNat ≥ 65 ∧ c.toNat ≤ 90 then Char.ofNat (c.toNat + 32) else c) = d := h
  split at h'
  next hr =>
    right
    have h2 := congrArg Char.toNat h'
    rw [toNat_ofNat_small _ (by omega)] at h2
    exact ⟨hr.1, hr.2, h2⟩
  next => exact Or.inl h'

theorem char_of_toNat {c : Char} {k : Nat} (h : c.toNat = k) : c = Char.ofNat k := by
  rw [← h, Char.ofNat_toNat]

/-- A character whose `toLower` is a given lowercase ASCII letter is that
letter or its uppercase form — the two case variants. -/
theorem toLower_case_split {c a : Char} (ha : 97 ≤ a.toNat ∧ a.toNat ≤ 122)
    (h : c.toLower = a) : c = a ∨ c = a.toUpper := by
  rcases toLower_letter h with h' | ⟨hb1, hb2, h3⟩
  · exact Or.inl h'
  · right
    have hup : a.toUpper = Char.ofNat (a.toNat - 32) := by
      have h' : (if a.toNat ≥ 97 ∧ a.toNat ≤ 122 then Char.ofNat (a.toNat - 32) else a) =
          a.toUpper := rfl
      rw [← h', if_pos ⟨ha.1, ha.2⟩]
    rw [hup, char_of_toNat (show c.toNat = a.toNat - 32 by omega)]

/-- A word equal to a lowercase ASCII word up to case is one of its case
variants. -/
theorem mem_allCasings_of_map : ∀ (w l : List Char),
    (∀ a ∈ w, 97 ≤ a.toNat ∧ a.toNat ≤ 122) → l.map Char.toLower = w →
    l ∈ allCasings w := by
  intro w
  induction w with
  | nil =>
    intro l _ h
    rw [List.map_eq_nil_iff] at h
    rw [h]
    exact List.mem_singleton.mpr rfl
  | cons a w' ih =>
    intro l hw h
    cases l with
    | nil => simp at h
    | cons c l' =>
      simp only [List.map_cons] at h
      obtain ⟨h1, h2⟩ := List.cons.inj h
      have hl' := ih l' (fun x hx => hw x (List.mem_cons_of_mem a hx)) h2
      have hc := toLower_case_split (hw a (List.mem_cons_self a w')) h1
      show c :: l' ∈ (allCasings w').flatMap (fun r => [a :: r, a.toUpper :: r])
      rw [List.mem_flatMap]
      refine ⟨l', hl', ?_⟩
      rcases hc with rfl | rfl
      · exact List.mem_cons_self _ _
      · exact List.mem_cons_of_mem _ (List.mem_cons_self _ _)

set_option maxHeartbeats 2000000 in
/-- Exhaustive evaluation of the substitution over every case variant of
the tag name, attribute name and extension on the template tag. -/
theorem caseTag_eval : ∀ tg ∈ allCasings ['i', 'm', 'g'], ∀ sr ∈ allCasings ['s', 'r', 'c'],
    ∀ ext ∈ allCasings ['j', 'p', 'g'] ++ allCasings ['p', 'n', 'g'],
    subScan (mkTagL tg sr ext) = mkResL tg sr := by decide

/-- Claim C7: for every casing of the tag name (any word whose lowercase
form is `img`), of the attribute name (lowercase form `src`) and of the
extension (lowercase form `jpg` or `png`), the tag matches and is
rewritten with the extension replaced by the lowercase literal `webp`
while the casing of all surrounding captured text is preserved. -/
theorem claim_C7_case_insensitive (tg sr ext : List Char)
    (h1 : tg.map Char.toLower = ['i', 'm', 'g'])
    (h2 : sr.map Char.toLower = ['s', 'r', 'c'])
    (h3 : ext.map Char.toLower = ['j', 'p', 'g'] ∨ ext.map Char.toLower = ['p', 'n', 'g']) :
    subScan (mkTagL tg sr ext) = mkResL tg sr := by
  have htg := mem_allCasings_of_map ['i', 'm', 'g'] tg (by decide) h1
  have hsr := mem_allCasings_of_map ['s', 'r', 'c'] sr (by decide) h2
  have hext : ext ∈ allCasings ['j', 'p', 'g'] ++ allCasings ['p', 'n', 'g'] := by
    rcases h3 with h3 | h3
    · exact List.mem_append_left _ (mem_allCasings_of_map ['j', 'p', 'g'] ext (by decide) h3)
    · exact List.mem_append_right _ (mem_allCasings_of_map ['p', 'n', 'g'] ext (by decide) h3)
  exact caseTag_eval tg htg sr hsr ext hext

theorem claim_C7_case_insensitive_witness :
    "IMG".data.map Char.toLower = ['i', 'm', 'g'] ∧
    "sRc".data.map Char.toLower = ['s', 'r', 'c'] ∧
    ("PNG".data.map Char.toLower = ['j', 'p', 'g'] ∨
      "PNG".data.map Char.toLower = ['p', 'n', 'g']) ∧
    subScan (mkTagL "IMG".data "sRc".data "PNG".data) = mkResL "IMG".data "sRc".data :=
  ⟨by decide, by decide, by decide,
    claim_C7_case_insensitive "IMG".data "sRc".data "PNG".data (by decide) (by decide)
      (by decide)⟩

/-- Claim C8: no URL-scheme check is performed: a match whose path value
begins with `http://` is rewritten by exactly the same rule as any other
match — groups 1, 2 and 4 copied verbatim and the extension replaced by
`webp`. -/
theorem claim_C8_no_scheme_check (s : List Char) (m : ImgMatch)
    (h : matchImgAt s = some m) (_hurl : "http://".data <+: m.g2) :
    subScan s = m.g1 ++ (m.g2 ++ (webpL ++ (m.g4 ++ subScan m.rest))) := by
  rw [subScan_some h, replace_ext]
  simp

theorem claim_C8_no_scheme_check_witness :
    matchImgAt exampleUrlTag = some exampleUrlMatch ∧
    "http://".data <+: exampleUrlMatch.g2 ∧
    subScan exampleUrlTag = exampleUrlMatch.g1 ++ (exampleUrlMatch.g2 ++ (webpL ++
      (exampleUrlMatch.g4 ++ subScan exampleUrlMatch.rest))) :=
  ⟨by decide, by decide, claim_C8_no_scheme_check _ _ (by decide) (by decide)⟩

/-- Claim C9: the pattern accepts any attribute whose name merely ends in
`src=`: in `<img data-src="x.jpg">` the `src` attribute is absent, yet
the segment `data-` is absorbed by the unconstrained non-`>` middle and
the tag is rewritten to `<img data-src="x.webp">`; group 1 of the match
ends with the text `data-src="`. -/
theorem claim_C9_data_src :
    imgTagSub "<img data-src=\"x.jpg\">" = "<img data-src=\"x.webp\">" ∧
    matchImgAt "<img data-src=\"x.jpg\">".data =
      some ⟨"<img data-src=\"".data, "x.".data, "jpg".data, "\">".data, []⟩ := by
  decide

/-- Claim C10: the closing quote need not equal the opening quote: each
quote position independently accepts either a single or a double quote,
the tag still matches, and each quote character is preserved as it
appeared. -/
theorem claim_C10_mismatched_quotes :
    imgTagSub "<img src=\"pic.jpg'>" = "<img src=\"pic.webp'>" ∧
    imgTagSub "<img src='pic.jpg\">" = "<img src='pic.webp\">" := by
  decide

end UpdateImages
